import Mathlib

/-!
Verification of the trace-and-pack builder of ureadahead against its
natural-language specification.

The development shallowly embeds the core data structures and algorithms of
src/trace.c: the per-inode sorted range array with merge-on-insert
(trace_add_file_map, add_map, cmp_file_map), the range intersector
(remove_untouched_blocks), the pack assembler bookkeeping (trace_add_path /
trace_add_chunks path indexes, trace_file device lookup), the post-processing
sorts (path_compar, trace_sort_blocks, trace_sort_paths), path normalization
(fix_path), the trace event callback (read_trace_cb) and the session
controller state handling (trace).

Conventions: off_t values handled by the code (page indexes, byte offsets,
byte lengths) are non-negative and far below 2^63 in every reachable state, so
they are embedded as Nat; fields that can legitimately be -1 (physical block
address, ext2 group) are embedded as Int.  C arrays are embedded as Lists.
-/

set_option linter.unusedVariables false

/-- PAGE_SHIFT (trace.c:94): shift width of the page size. -/
def PAGE_SHIFT : Nat := 12

/-- The page size in bytes, 2 ^ PAGE_SHIFT = 4096. -/
def PAGE_SIZE : Nat := 4096

/-- struct file_map (trace.c:130): a half-open interval [start, end_) of page
indexes.  The field named end in C is end_ here (end is a Lean keyword). -/
structure FileMap where
  start : Nat
  end_ : Nat
deriving DecidableEq

/-- cmp_file_map (trace.c:1535): three-way comparison that returns 0 (a match)
iff A overlaps or touches B. -/
def cmp_file_map (a b : FileMap) : Int :=
  if a.end_ < b.start then -1
  else if b.end_ < a.start then 1
  else 0

/-- The walk of trace_add_file_map (trace.c:1510-1531): starting from the first
range of the matching run (lo, whose end is last_end at entry), absorb the
contiguous run of ranges that overlap or touch the key (the C code walks
upper_bound forward while cmp_file_map(upper_bound + 1, &key) == 0), then
replace the run by a single range from min(lo.start, key.start) to
max(upper_bound.end, key.end) (trace.c:1519-1520). -/
def merge_run (key lo : FileMap) (last_end : Nat) : List FileMap → List FileMap
  | [] => [⟨min lo.start key.start, max last_end key.end_⟩]
  | m :: rest =>
    if cmp_file_map m key = 0 then merge_run key lo m.end_ rest
    else ⟨min lo.start key.start, max last_end key.end_⟩ :: m :: rest

/-- trace_add_file_map (trace.c:1469) acting on the map array of one inode.
The key is the half-open interval [index, last_index + 1) (trace.c:1487-1488).
The C code bsearches the sorted, non-overlapping, non-touching array with
cmp_file_map; on such an array the ranges comparing -1, 0 and 1 against the
key form three consecutive segments, so the bsearch outcome is equivalent to
this left-to-right scan: ranges entirely below the key are kept; if a range
entirely above the key is reached first, nothing matched and the key is
inserted here (this is the add_map path, trace.c:1497-1502); otherwise the
matching run is replaced by its merger with the key (merge_run).  The early
return for a fully containing match (trace.c:1504-1506) needs no separate
branch: when the single matching range contains the key, merge_run returns
the array unchanged. -/
def trace_add_file_map : List FileMap → Nat → Nat → List FileMap
  | [], index, last_index => [⟨index, last_index + 1⟩]
  | m :: rest, index, last_index =>
    let key : FileMap := ⟨index, last_index + 1⟩
    if cmp_file_map m key < 0 then
      m :: trace_add_file_map rest index last_index
    else if 0 < cmp_file_map m key then
      key :: m :: rest
    else
      merge_run key m m.end_ rest

/-- add_map (trace.c:1557): insert a range that touches no existing range at
its sorted position.  The C code finds the position with bsearch over
cmp_file_map_range (helped by the FILEMAP_START_MARK sentinel element that
precedes the array); for a key touching nothing, that position is directly
after the ranges lying entirely below the key. -/
def add_map (maps : List FileMap) (index last_index : Nat) : List FileMap :=
  maps.takeWhile (fun m => m.end_ < index) ++
    ⟨index, last_index + 1⟩ :: maps.dropWhile (fun m => m.end_ < index)

/-- A page index p is covered by the union of the stored ranges. -/
def covered (maps : List FileMap) (p : Nat) : Prop :=
  ∃ m ∈ maps, m.start ≤ p ∧ p < m.end_

instance (maps : List FileMap) (p : Nat) : Decidable (covered maps p) := by
  unfold covered; infer_instance

/-- The invariant of an inode map array (spec section 3): entries are proper
intervals, sorted and pairwise non-overlapping and non-touching. -/
def FileMapsWF (maps : List FileMap) : Prop :=
  (∀ m ∈ maps, m.start < m.end_) ∧ maps.Pairwise (fun a b => a.end_ < b.start)

instance (maps : List FileMap) : Decidable (FileMapsWF maps) := by
  unfold FileMapsWF; infer_instance

/-- record_access of the spec: the sequence of trace_add_file_map calls made
for one inode, starting from the empty map array a fresh inode_data has. -/
def record_access_fold (calls : List (Nat × Nat)) : List FileMap :=
  calls.foldl (fun ms c => trace_add_file_map ms c.1 c.2) []

/-- PackBlock (pack.h, as used by trace.c): a byte range of one path plus its
physical address on disk (-1 when unknown, 0 in open-only markers). -/
structure PackBlock where
  pathidx : Nat
  offset : Nat
  length : Nat
  physical : Int
deriving DecidableEq

instance : Inhabited PackBlock := ⟨⟨0, 0, 0, 0⟩⟩

/-- PackPath (pack.h, as used by trace.c): ext2 group (-1 if unknown), inode
number, and the path string. -/
structure PackPath where
  group : Int
  ino : Nat
  path : String
deriving DecidableEq

instance : Inhabited PackPath := ⟨⟨0, 0, ""⟩⟩

/-- PackFile (pack.h, as used by trace.c). -/
structure PackFile where
  dev : Nat
  rotational : Bool
  paths : List PackPath
  blocks : List PackBlock
deriving DecidableEq

instance : Inhabited PackFile := ⟨⟨0, false, [], []⟩⟩

/-- The page range of a block (trace.c:549-551): [offset >> PAGE_SHIFT,
(offset + length) >> PAGE_SHIFT). -/
def page_range (block : PackBlock) : FileMap :=
  ⟨block.offset / PAGE_SIZE, (block.offset + block.length) / PAGE_SIZE⟩

/-- The body of one iteration of the inner loop of remove_untouched_blocks
(trace.c:603-617): new_offset = max(range.start << PAGE_SHIFT, block.offset),
new_end = min(range.end << PAGE_SHIFT, block.offset + block.length); when
new_length = new_end - new_offset is positive, one block
{block.pathidx, new_offset, new_length, block.physical + new_offset -
block.offset} is emitted, otherwise nothing (ranges that merely touch). -/
def emit_piece (block : PackBlock) (range : FileMap) : List PackBlock :=
  if max (range.start * PAGE_SIZE) block.offset <
      min (range.end_ * PAGE_SIZE) (block.offset + block.length) then
    [⟨block.pathidx, max (range.start * PAGE_SIZE) block.offset,
      min (range.end_ * PAGE_SIZE) (block.offset + block.length) -
        max (range.start * PAGE_SIZE) block.offset,
      block.physical + (max (range.start * PAGE_SIZE) block.offset : Int) -
        (block.offset : Int)⟩]
  else []

/-- The inner loop of remove_untouched_blocks (trace.c:592-628): walk the
accessed ranges while they overlap or touch the block's page range, emitting
the byte intersection of each range with the block (emit_piece).  Returns the
emitted blocks and the list suffix at which the filemap cursor stops: the
loop breaks before a range entirely above the block (trace.c:600), leaves
the cursor on a range that extends past the block (trace.c:624) and
otherwise advances it (trace.c:627). -/
def emit_blocks (block : PackBlock) (block_range : FileMap) :
    List FileMap → List PackBlock × List FileMap
  | [] => ([], [])
  | range :: rest =>
    if 0 < cmp_file_map range block_range then ([], range :: rest)
    else if block_range.end_ < range.end_ then (emit_piece block range, range :: rest)
    else
      let next := emit_blocks block block_range rest
      (emit_piece block range ++ next.1, next.2)

/-- The per-block body of remove_untouched_blocks (trace.c:547-629), folded
over the block list.  State: the pathidx of the path whose maps are loaded
(none models the initial pathidx = (size_t)-1, trace.c:543) and the filemap
cursor, kept as the remaining suffix of the loaded map array.  On a pathidx
change the inode is looked up (trace.c:554-563); a missing device or inode
emits the open-only marker {pathidx, 0, 0, 0} and, via nr_maps = 0, skips
every remaining block of that path (trace.c:565-577).  Otherwise ranges
entirely below the block are skipped (trace.c:587-589) and the overlap loop
runs (emit_blocks). -/
def remove_untouched_loop (lookup : Nat → Option (List FileMap)) :
    Option Nat → List FileMap → List PackBlock → List PackBlock
  | _, _, [] => []
  | cur, maps, block :: rest =>
    let block_range := page_range block
    if cur = some block.pathidx then
      let skipped := maps.dropWhile (fun r => cmp_file_map r block_range < 0)
      let step := emit_blocks block block_range skipped
      step.1 ++ remove_untouched_loop lookup cur step.2 rest
    else
      match lookup block.pathidx with
      | none =>
        ⟨block.pathidx, 0, 0, 0⟩ ::
          remove_untouched_loop lookup (some block.pathidx) [] rest
      | some m =>
        let skipped := m.dropWhile (fun r => cmp_file_map r block_range < 0)
        let step := emit_blocks block block_range skipped
        step.1 ++ remove_untouched_loop lookup (some block.pathidx) step.2 rest

/-- The state (current pathidx, filemap cursor) in which remove_untouched_loop
leaves off after a block list; used to reason about runs of blocks. -/
def remove_untouched_state (lookup : Nat → Option (List FileMap)) :
    Option Nat → List FileMap → List PackBlock → Option Nat × List FileMap
  | cur, maps, [] => (cur, maps)
  | cur, maps, block :: rest =>
    let block_range := page_range block
    if cur = some block.pathidx then
      let skipped := maps.dropWhile (fun r => cmp_file_map r block_range < 0)
      let step := emit_blocks block block_range skipped
      remove_untouched_state lookup cur step.2 rest
    else
      match lookup block.pathidx with
      | none => remove_untouched_state lookup (some block.pathidx) [] rest
      | some m =>
        let skipped := m.dropWhile (fun r => cmp_file_map r block_range < 0)
        let step := emit_blocks block block_range skipped
        remove_untouched_state lookup (some block.pathidx) step.2 rest

/-- remove_untouched_blocks (trace.c:532): replace the block list of a pack
file by its intersection with the accessed ranges.  device_inodes is the
content of the device hash for file.dev: the map array of each inode number
present, none for absent inodes (or for the whole device when absent); in C
the lookup is find_device (trace.c:561) followed by find_inode on
file->paths[pathidx].ino (trace.c:563). -/
def remove_untouched_blocks (device_inodes : Nat → Option (List FileMap))
    (file : PackFile) : PackFile :=
  { file with
    blocks :=
      remove_untouched_loop
        (fun pathidx => device_inodes ((file.paths.getD pathidx default).ino))
        none [] file.blocks }

/-- The cursor invariant of remove_untouched_blocks: when the maps of path p
are loaded (cur = some p), either the lookup of p failed and the cursor is
empty (the open-only marker state, trace.c:565-577), or the cursor ms is a
suffix of the full map array of that inode and every range already passed
ends at or before the page start of every upcoming block of the current
contiguous run of path p. -/
def CursorInv (lookup : Nat → Option (List FileMap)) (cur : Option Nat)
    (ms : List FileMap) (bs : List PackBlock) : Prop :=
  ∀ p, cur = some p →
    (lookup p = none ∧ ms = []) ∨
    ∃ M pre, lookup p = some M ∧ M = pre ++ ms ∧
      ∀ r ∈ pre, ∀ b ∈ bs.takeWhile (fun b => b.pathidx = p),
        r.end_ ≤ b.offset / PAGE_SIZE

/-- tep_event as used by read_trace_cb: only the event id matters. -/
structure TepEvent where
  id : Nat
deriving DecidableEq

/-- The event fields of read_trace_context (trace.c:405-422) consulted by
read_trace_cb.  Each is an Option: NULL is none. -/
structure ReadTraceContext where
  do_sys_open : Option TepEvent
  open_exec : Option TepEvent
  uselib : Option TepEvent
  filemap_fault : Option TepEvent
  filemap_get_pages : Option TepEvent
  filemap_map_pages : Option TepEvent
deriving DecidableEq

/-- How read_trace (trace.c:494-509) fills the event fields of the context:
do_sys_open, open_exec and uselib are assigned NULL outright — the
tep_find_event_by_name calls are commented out (trace.c:496-498) — while the
three filemap events are resolved through init_filemap_tep (trace.c:499-501)
and may or may not be present. -/
def read_trace_context (fault get_pages map_pages : Option TepEvent) :
    ReadTraceContext :=
  { do_sys_open := none
    open_exec := none
    uselib := none
    filemap_fault := fault
    filemap_get_pages := get_pages
    filemap_map_pages := map_pages }

/-- The dispatch outcome of read_trace_cb for one record. -/
inductive TraceDispatch where
  | path
  | filemap
  | ignored
deriving DecidableEq

/-- read_trace_cb (trace.c:638-664).  The C code evaluates
event->id == context->do_sys_open->id and, if that is false,
event->id == context->open_exec->id, without any NULL check on either
pointer (trace.c:645-646); uselib and the filemap events are guarded
(trace.c:647, 654-656).  A dereference of a NULL field is modelled as none;
some d is a well-defined dispatch. -/
def read_trace_cb (context : ReadTraceContext) (event : TepEvent) :
    Option TraceDispatch :=
  match context.do_sys_open with
  | none => none
  | some dso =>
    if event.id == dso.id then some TraceDispatch.path
    else
      match context.open_exec with
      | none => none
      | some oex =>
        if event.id == oex.id then some TraceDispatch.path
        else if (match context.uselib with
                 | some u => event.id == u.id
                 | none => false) then some TraceDispatch.path
        else if ((match context.filemap_fault with
                  | some f => event.id == f.id
                  | none => false) ||
                 (match context.filemap_get_pages with
                  | some f => event.id == f.id
                  | none => false) ||
                 (match context.filemap_map_pages with
                  | some f => event.id == f.id
                  | none => false)) then some TraceDispatch.filemap
        else some TraceDispatch.ignored

/-- strcmp on the stored path strings, as a three-way Int result. -/
def strcmp (a b : String) : Int :=
  match compare a b with
  | Ordering.lt => -1
  | Ordering.eq => 0
  | Ordering.gt => 1

/-- path_compar (trace.c:1336-1357).  Line 1352 of the source compares
path_b->ino with itself; that is reproduced faithfully here. -/
def path_compar (path_a path_b : PackPath) : Int :=
  if path_a.group < path_b.group then -1
  else if path_a.group > path_b.group then 1
  else if path_a.ino < path_b.ino then -1
  else if path_b.ino > path_b.ino then 1
  else strcmp path_a.path path_b.path

/-- trace_sort_blocks (trace.c:1319-1334): sort the block array by ascending
physical address (block_compar, trace.c:1300-1317).  qsort is embedded as a
sorting function that permutes the array into an order consistent with the
comparator. -/
def trace_sort_blocks (file : PackFile) : PackFile :=
  { file with
    blocks := file.blocks.mergeSort (fun a b => a.physical ≤ b.physical) }

/-- trace_sort_paths (trace.c:1359-1410): qsort an array of pointers into
paths with path_compar (embedded as a sort of the index list 0..num_paths-1),
compute new_idx as the inverse permutation (trace.c:1391-1392: the path at old
position order[i] moves to new position i), rewrite every block's pathidx
through new_idx (trace.c:1394-1395) and reorder the paths array
(trace.c:1400-1404). -/
def trace_sort_paths (file : PackFile) : PackFile :=
  let order := (List.range file.paths.length).mergeSort
    (fun i j => path_compar (file.paths.getD i default) (file.paths.getD j default) ≤ 0)
  { file with
    paths := order.map (fun i => file.paths.getD i default)
    blocks := file.blocks.map
      (fun b => { b with pathidx := order.indexOf b.pathidx }) }

/-- One trace_add_path call that reaches trace_add_chunks: the path appended
to the pack (trace.c:871-882) followed by the blocks appended for it, each
created with pathidx = file->num_paths - 1 (trace.c:1111, 1228).  Chunks are
(offset, length, physical) triples, covering both the non-rotational branch
(physical = -1, trace.c:1102-1115) and the FIEMAP extents (trace.c:1220-1233);
a path whose inode was already seen, or whose size is zero, has no chunks. -/
structure AssembleOp where
  path : PackPath
  chunks : List (Nat × Nat × Int)

/-- Append one path and its blocks to a PackFile (trace_add_path followed by
trace_add_chunks / trace_add_extents). -/
def trace_add_path_op (file : PackFile) (op : AssembleOp) : PackFile :=
  let paths := file.paths ++ [op.path]
  { file with
    paths := paths
    blocks := file.blocks ++
      op.chunks.map (fun c => ⟨paths.length - 1, c.1, c.2.1, c.2.2⟩) }

/-- A fresh PackFile as created by trace_file (trace.c:1008-1019). -/
def new_pack_file (dev : Nat) (rotational : Bool) : PackFile :=
  ⟨dev, rotational, [], []⟩

/-- trace_file (trace.c:954-1022): return the index of the existing PackFile
for this device (trace.c:969-971) or append a new one.  The rotational flag
of a new file comes from sysfs or force_ssd_mode; it is a parameter here. -/
def trace_file (files : List PackFile) (dev : Nat) (rotational : Bool) :
    Nat × List PackFile :=
  match files.findIdx? (fun f => f.dev == dev) with
  | some i => (i, files)
  | none => (files.length, files ++ [new_pack_file dev rotational])

/-- The PackFile array produced by a sequence of device requests, one per
trace_add_path call that reaches trace_file. -/
def trace_file_fold (reqs : List (Nat × Bool)) : List PackFile :=
  reqs.foldl (fun files r => (trace_file files r.1 r.2).2) []

/-- Assembly of one PackFile by a sequence of trace_add_path calls for its
device. -/
def assemble (dev : Nat) (rotational : Bool) (ops : List AssembleOp) : PackFile :=
  ops.foldl trace_add_path_op (new_pack_file dev rotational)

/-- Every block names an existing path index. -/
def PackFileValid (file : PackFile) : Prop :=
  ∀ b ∈ file.blocks, b.pathidx < file.paths.length

instance (file : PackFile) : Decidable (PackFileValid file) := by
  unfold PackFileValid; infer_instance

/-- The scan loop of fix_path (trace.c:726-760) followed by the trailing-slash
strip (trace.c:762-763).  State: pre holds the characters before the scan
pointer in reverse order, rest the characters from the pointer on.  The C
loop advances one character unless the pointer is at a '/': there,
len = strcspn(ptr + 1, "/") measures the next component; len = 0 (another '/'
or end of string) and the single component "." drop len + 1 characters in
place (trace.c:737-741); the component ".." also discards the preceding
component back to the previous '/' or the string start (trace.c:746-758).
At the end of the string, the final while loop overwrites every trailing '/'
with NUL; its ptr != pathname guard stops it from moving before the first
character but not from erasing a '/' at position 0.  Every step either moves
one character from rest to pre or removes at least one character, and
characters never re-enter rest, so 2 * length + 1 steps of fuel always
suffice; fuel makes the recursion structural so that the function evaluates
by kernel reduction. -/
def fix_path_loop : Nat → List Char → List Char → List Char
  | 0, pre, rest => pre.reverse ++ rest
  | _ + 1, pre, [] => (pre.dropWhile (fun c => c = '/')).reverse
  | fuel + 1, pre, c :: t =>
    if c ≠ '/' then fix_path_loop fuel (c :: pre) t
    else
      let len := (t.takeWhile (fun d => d ≠ '/')).length
      if len = 0 ∨ (len = 1 ∧ t.headD ' ' = '.') then
        fix_path_loop fuel pre (t.drop len)
      else if len = 2 ∧ t.take 2 = ['.', '.'] then
        fix_path_loop fuel ((pre.dropWhile (fun d => d ≠ '/')).drop 1) (t.drop 2)
      else
        fix_path_loop fuel ('/' :: pre) t

/-- fix_path (trace.c:719-764). -/
def fix_path (s : String) : String :=
  (fix_path_loop (2 * s.length + 1) [] s.data).asString

/-- The pieces of session environment touched by trace() (trace.c:229-402):
per-event enable flags, per-CPU buffer size, the tracing-on flag, the process
niceness and the SIGTERM/SIGINT dispositions (handlers are opaque values of
type H). -/
structure TraceEnv (H : Type) where
  events_enabled : List Bool
  buffer_size_kb : Nat
  tracing_on : Bool
  niceness : Int
  sigterm : H
  sigint : H
deriving DecidableEq

/-- The clean (every call succeeds) run of trace() (trace.c:229-402) with
use_existing_trace_events = 0 and daemonise = 0, as a transformer of the
session environment.  Steps, in source order: record and enable the six
events (trace.c:250-263); record the buffer size, set it to 8192 KiB
(trace.c:266-275); record the tracing flag, turn tracing on (trace.c:276-285);
install sig_interrupt on SIGTERM and SIGINT (trace.c:300-305); wait; restore
both dispositions (trace.c:316-317); turn tracing back off only if it was off
before (trace.c:320); disable every event that was not previously enabled
(trace.c:324-331); nice(15), which raises the niceness by 15 clamped at the
kernel ceiling of 19 and is never undone (trace.c:334); read the trace; and
restore the buffer size (trace.c:346).  read_trace does not touch any of
these pieces of state. -/
def trace_run {H : Type} (sig_interrupt : H) (e : TraceEnv H) : TraceEnv H :=
  let old_events := e.events_enabled
  let e1 := { e with events_enabled := e.events_enabled.map (fun _ => true) }
  let old_buffer := e1.buffer_size_kb
  let e2 := { e1 with buffer_size_kb := 8192 }
  let old_tracing := e2.tracing_on
  let e3 := { e2 with tracing_on := true }
  let old_sigterm := e3.sigterm
  let old_sigint := e3.sigint
  let e4 := { e3 with sigterm := sig_interrupt, sigint := sig_interrupt }
  let e5 := { e4 with sigterm := old_sigterm, sigint := old_sigint }
  let e6 := { e5 with tracing_on := if old_tracing = false then false else e5.tracing_on }
  let e7 := { e6 with
    events_enabled := (old_events.zip e6.events_enabled).map
      (fun p : Bool × Bool => if p.1 then p.2 else false) }
  let e8 := { e7 with niceness := min (e7.niceness + 15) 19 }
  { e8 with buffer_size_kb := old_buffer }

/-- A concrete pre-trace session environment used as counterexample input. -/
def sample_env : TraceEnv Nat :=
  { events_enabled := [false, false, false, false, false, false]
    buffer_size_kb := 1408
    tracing_on := false
    niceness := 0
    sigterm := 1
    sigint := 2 }

/-- The end of the last range of the run absorbed by merge_run, seeded with
the end of the run's first range. -/
def run_last_end (e : Nat) (l : List FileMap) : Nat :=
  l.foldl (fun _ m => m.end_) e

/-- The record_access sequence of scenario S1 of the spec (also the inputs of
test_trace_add_file_map, trace.c:1807-1908): inclusive index pairs passed for
inode 12345 of device (8,0). -/
def s1_calls : List (Nat × Nat) :=
  [(0, 0), (2, 3), (1, 1), (4, 5), (8, 10), (7, 7), (1, 3), (7, 10), (2, 8)]

/-- A permutation of the S1 sequence. -/
def s1_calls_perm : List (Nat × Nat) :=
  [(2, 8), (0, 0), (1, 1), (2, 3), (4, 5), (7, 7), (8, 10), (1, 3), (7, 10)]

/-- A concrete PackFile used as witness input for the range intersector: one
path of inode 1 with one resident chunk of pages [13, 18). -/
def c3_file : PackFile :=
  { dev := 2048
    rotational := false
    paths := [⟨-1, 1, "/lib/a"⟩]
    blocks := [⟨0, 53248, 20480, 7⟩] }

/-- The device-hash content for c3_file: inode 1 has accessed pages [13, 19). -/
def c3_inodes : Nat → Option (List FileMap) :=
  fun i => if i = 1 then some [⟨13, 19⟩] else none

/-- A concrete PackFile used as witness input for the open-only marker: one
path of inode 7 with one block, and a device hash with no entry at all. -/
def c6_file : PackFile :=
  { dev := 2049
    rotational := true
    paths := [⟨-1, 7, "/etc/x"⟩]
    blocks := [⟨0, 0, 4096, 3⟩] }

/-- **C1** (code_bug evidence).  read_trace initializes context.do_sys_open,
context.open_exec and context.uselib to NULL — the event lookups at
trace.c:496-498 are commented out — and read_trace_cb dereferences
context->do_sys_open->id on every record (trace.c:645).  Hence, whatever
filemap events were found, every delivered record hits the NULL dereference
(modelled as none): no record is ever dispatched to the path handler, and a
missing open event is a crash, not a reported fatal configuration error. -/
theorem read_trace_cb_null_deref
    (fault get_pages map_pages : Option TepEvent) (event : TepEvent) :
    read_trace_cb (read_trace_context fault get_pages map_pages) event = none := rfl

/-- **C4** (code_bug evidence).  path_compar evaluated at the failing input:
with path_a = (group 0, ino 2, "a") and path_b = (group 0, ino 1, "b"), the
comparator orders a strictly before b and also b strictly before a, because
trace.c:1352 compares path_b->ino with itself and the decision falls through
to strcmp.  The key (group, ino, path) of the claim orders b (ino 1) strictly
before a (ino 2), so no qsort run with this comparator can realize that
order, and the comparator is not even antisymmetric. -/
theorem path_compar_not_antisymm :
    path_compar ⟨0, 2, "a"⟩ ⟨0, 1, "b"⟩ = -1 ∧
    path_compar ⟨0, 1, "b"⟩ ⟨0, 2, "a"⟩ = -1 ∧
    ((⟨0, 1, "b"⟩ : PackPath).ino < (⟨0, 2, "a"⟩ : PackPath).ino) := by
  constructor
  · rfl
  · constructor
    · rfl
    · decide

/-- **C8** (counterexample).  fix_path does not leave the root path intact:
the scan loop sees the lone '/' with an empty following component (len = 0)
and removes it, so fix_path("/") is the empty string, not "/". -/
theorem fix_path_root_not_preserved : fix_path "/" ≠ "/" := by decide

/-- **C8** (amended).  Path normalization collapses every // and /./,
pops one component for every /../ (bounded at the start of the string) and
strips trailing '/' characters — including the root path "/", which becomes
the empty string rather than being left intact.  In particular
fix_path("/a//b/./c/../d/") = "/a/b/d". -/
theorem fix_path_examples :
    fix_path "/a//b/./c/../d/" = "/a/b/d" ∧
    fix_path "/" = "" ∧
    fix_path "/a//b" = "/a/b" ∧
    fix_path "/a/./b" = "/a/b" ∧
    fix_path "/a/b/../c" = "/a/c" ∧
    fix_path "/../a" = "/a" ∧
    fix_path "/a/b/" = "/a/b" := by
  refine ⟨?_, ?_, ?_, ?_, ?_, ?_, ?_⟩ <;> decide

/-- **C9** (counterexample).  On a clean run the session controller does not
restore every piece of environment it touched: starting from niceness 0, the
run leaves the process niceness at 15 (trace.c:334 calls nice(15) and no
later step undoes it), so the niceness is not restored to its prior value. -/
theorem trace_run_niceness_not_restored :
    (trace_run 0 sample_env).niceness ≠ sample_env.niceness := by decide

/-- Restoring the un-previously-enabled events recovers the old enable
vector: after every event was enabled, disabling exactly those whose old
state was off is the identity on the old vector. -/
theorem zip_restore_events (l : List Bool) :
    (l.zip (l.map (fun _ => true))).map
      (fun p : Bool × Bool => if p.1 then p.2 else false) = l := by
  induction l with
  | nil => rfl
  | cons a t ih =>
    simp only [List.map_cons, List.zip_cons_cons, ih]
    cases a <;> simp

/-- **C9** (amended).  On a clean run of the session controller the tracefs
buffer size, the per-event enable flags, the tracing-on flag and the
SIGTERM/SIGINT dispositions are restored to their prior values before the
controller returns; the process niceness is not restored — it is left raised
by 15 (clamped at the kernel ceiling of 19). -/
theorem trace_run_restores_all_but_niceness {H : Type} (sig_interrupt : H)
    (e : TraceEnv H) :
    (trace_run sig_interrupt e).buffer_size_kb = e.buffer_size_kb ∧
    (trace_run sig_interrupt e).events_enabled = e.events_enabled ∧
    (trace_run sig_interrupt e).tracing_on = e.tracing_on ∧
    (trace_run sig_interrupt e).sigterm = e.sigterm ∧
    (trace_run sig_interrupt e).sigint = e.sigint ∧
    (trace_run sig_interrupt e).niceness = min (e.niceness + 15) 19 := by
  unfold trace_run
  refine ⟨rfl, ?_, ?_, rfl, rfl, rfl⟩
  · exact zip_restore_events e.events_enabled
  · cases h : e.tracing_on <;> simp [h]

/-- cmp_file_map only takes the three values -1, 0, 1. -/
theorem cmp_file_map_cases (a b : FileMap) :
    cmp_file_map a b = -1 ∨ cmp_file_map a b = 0 ∨ cmp_file_map a b = 1 := by
  unfold cmp_file_map
  split_ifs <;> simp

/-- Negative comparison means A lies entirely below B without touching it. -/
theorem cmp_file_map_neg_iff (a b : FileMap) :
    cmp_file_map a b < 0 ↔ a.end_ < b.start := by
  unfold cmp_file_map
  split_ifs with h1 h2 <;> simp_all

/-- Positive comparison means A lies entirely above B without touching it. -/
theorem cmp_file_map_pos_iff (a b : FileMap) :
    0 < cmp_file_map a b ↔ (b.start ≤ a.end_ ∧ b.end_ < a.start) := by
  unfold cmp_file_map
  split_ifs with h1 h2 <;> simp_all

/-- Zero comparison means A overlaps or touches B. -/
theorem cmp_file_map_zero_iff (a b : FileMap) :
    cmp_file_map a b = 0 ↔ (b.start ≤ a.end_ ∧ a.start ≤ b.end_) := by
  unfold cmp_file_map
  split_ifs with h1 h2 <;> simp_all

/-- Along a sorted, non-touching list of proper ranges the comparison against
a fixed key is monotone. -/
theorem cmp_file_map_mono (key : FileMap) {m m' : FileMap} (hm : m.start < m.end_)
    (hm' : m'.start < m'.end_) (hlt : m.end_ < m'.start) :
    cmp_file_map m key ≤ cmp_file_map m' key := by
  unfold cmp_file_map
  split_ifs <;> omega

theorem covered_nil (p : Nat) : ¬ covered [] p := by simp [covered]

theorem covered_cons {m : FileMap} {l : List FileMap} {p : Nat} :
    covered (m :: l) p ↔ (m.start ≤ p ∧ p < m.end_) ∨ covered l p := by
  unfold covered
  constructor
  · rintro ⟨x, hx, h⟩
    rcases List.mem_cons.mp hx with rfl | hx
    · exact Or.inl h
    · exact Or.inr ⟨x, hx, h⟩
  · rintro (h | ⟨x, hx, h⟩)
    · exact ⟨m, List.mem_cons_self m l, h⟩
    · exact ⟨x, List.mem_cons_of_mem _ hx, h⟩

theorem covered_append {l₁ l₂ : List FileMap} {p : Nat} :
    covered (l₁ ++ l₂) p ↔ covered l₁ p ∨ covered l₂ p := by
  unfold covered
  constructor
  · rintro ⟨x, hx, h⟩
    rcases List.mem_append.mp hx with hx | hx
    · exact Or.inl ⟨x, hx, h⟩
    · exact Or.inr ⟨x, hx, h⟩
  · rintro (⟨x, hx, h⟩ | ⟨x, hx, h⟩)
    · exact ⟨x, List.mem_append_left _ hx, h⟩
    · exact ⟨x, List.mem_append_right _ hx, h⟩

theorem FileMapsWF_cons {m : FileMap} {l : List FileMap} :
    FileMapsWF (m :: l) ↔
      m.start < m.end_ ∧ (∀ x ∈ l, m.end_ < x.start) ∧ FileMapsWF l := by
  unfold FileMapsWF
  rw [List.pairwise_cons]
  constructor
  · rintro ⟨hp, hlt, hpw⟩
    exact ⟨hp m (List.mem_cons_self _ _), hlt,
      fun x hx => hp x (List.mem_cons_of_mem _ hx), hpw⟩
  · rintro ⟨hp, hlt, hp', hpw⟩
    refine ⟨?_, hlt, hpw⟩
    intro x hx
    rcases List.mem_cons.mp hx with rfl | hx
    · exact hp
    · exact hp' x hx

theorem run_last_end_nil (e : Nat) : run_last_end e [] = e := rfl

theorem run_last_end_cons (e : Nat) (m : FileMap) (l : List FileMap) :
    run_last_end e (m :: l) = run_last_end m.end_ l := rfl

/-- run_last_end is the seed or the end of some member. -/
theorem run_last_end_mem (e : Nat) :
    ∀ l : List FileMap, run_last_end e l = e ∨ ∃ x ∈ l, run_last_end e l = x.end_
  | [] => Or.inl rfl
  | m :: l => by
    rw [run_last_end_cons]
    rcases run_last_end_mem m.end_ l with h | ⟨x, hx, h⟩
    · exact Or.inr ⟨m, List.mem_cons_self m l, h⟩
    · exact Or.inr ⟨x, List.mem_cons_of_mem _ hx, h⟩

/-- On a sorted, non-touching list of proper ranges whose ends dominate the
seed, run_last_end dominates the seed and every member end. -/
theorem run_last_end_ge (e : Nat) :
    ∀ l : List FileMap,
      (∀ x ∈ l, x.start < x.end_) →
      l.Pairwise (fun a b => a.end_ < b.start) →
      (∀ x ∈ l, e ≤ x.end_) →
      e ≤ run_last_end e l ∧ ∀ x ∈ l, x.end_ ≤ run_last_end e l
  | [] => fun _ _ _ => ⟨le_refl e, by simp⟩
  | m :: l => fun hp hpw he => by
    rw [run_last_end_cons]
    obtain ⟨hmlt, hpw'⟩ := List.pairwise_cons.mp hpw
    have ih := run_last_end_ge m.end_ l
      (fun x hx => hp x (List.mem_cons_of_mem _ hx)) hpw'
      (fun x hx => le_of_lt (lt_trans (hmlt x hx) (hp x (List.mem_cons_of_mem _ hx))))
    refine ⟨le_trans (he m (List.mem_cons_self _ _)) ih.1, ?_⟩
    intro x hx
    rcases List.mem_cons.mp hx with rfl | hx
    · exact ih.1
    · exact ih.2 x hx

/-- Closed form of merge_run: absorb exactly the leading run of ranges
matching the key and keep the rest. -/
theorem merge_run_eq (ks ke : Nat) (lo : FileMap) :
    ∀ (rest : List FileMap) (last_end : Nat),
      merge_run ⟨ks, ke⟩ lo last_end rest =
        ⟨min lo.start ks,
         max (run_last_end last_end
                (rest.takeWhile (fun m => cmp_file_map m ⟨ks, ke⟩ = 0))) ke⟩ ::
          rest.dropWhile (fun m => cmp_file_map m ⟨ks, ke⟩ = 0) := by
  intro rest
  induction rest with
  | nil =>
    intro last_end
    simp [merge_run, run_last_end]
  | cons m rest ih =>
    intro last_end
    by_cases h : cmp_file_map m ⟨ks, ke⟩ = 0
    · rw [List.takeWhile_cons_of_pos (by simp only [decide_eq_true_eq]; exact h),
          List.dropWhile_cons_of_pos (by simp only [decide_eq_true_eq]; exact h),
          run_last_end_cons]
      have hstep : merge_run ⟨ks, ke⟩ lo last_end (m :: rest) =
          merge_run ⟨ks, ke⟩ lo m.end_ rest := by
        simp only [merge_run, if_pos h]
      rw [hstep, ih m.end_]
    · rw [List.takeWhile_cons_of_neg (by simp only [decide_eq_true_eq]; exact h),
          List.dropWhile_cons_of_neg (by simp only [decide_eq_true_eq]; exact h),
          run_last_end_nil]
      simp only [merge_run, if_neg h]

/-- After dropping the leading matching run from a sorted list whose members
all compare at least 0 against the key, everything compares strictly above. -/
theorem dropWhile_zero_pos (key : FileMap) :
    ∀ l : List FileMap,
      (∀ x ∈ l, x.start < x.end_) →
      l.Pairwise (fun a b => a.end_ < b.start) →
      (∀ x ∈ l, 0 ≤ cmp_file_map x key) →
      ∀ x ∈ l.dropWhile (fun r => cmp_file_map r key = 0), 0 < cmp_file_map x key
  | [] => fun _ _ _ => by simp
  | b :: t => fun hp hpw hge => by
    obtain ⟨hblt, hpw'⟩ := List.pairwise_cons.mp hpw
    by_cases hb : cmp_file_map b key = 0
    · rw [List.dropWhile_cons_of_pos (by simp only [decide_eq_true_eq]; exact hb)]
      exact dropWhile_zero_pos key t
        (fun x hx => hp x (List.mem_cons_of_mem _ hx)) hpw'
        (fun x hx => by
          have := cmp_file_map_mono key (hp b (List.mem_cons_self _ _))
            (hp x (List.mem_cons_of_mem _ hx)) (hblt x hx)
          omega)
    · rw [List.dropWhile_cons_of_neg (by simp only [decide_eq_true_eq]; exact hb)]
      intro x hx
      have hbpos : 0 < cmp_file_map b key := by
        have := hge b (List.mem_cons_self _ _)
        rcases cmp_file_map_cases b key with h | h | h <;> omega
      rcases List.mem_cons.mp hx with rfl | hx
      · exact hbpos
      · have := cmp_file_map_mono key (hp b (List.mem_cons_self _ _))
          (hp x (List.mem_cons_of_mem _ hx)) (hblt x hx)
        omega

/-- Rewriting lemma: a range entirely below the key is kept and the scan
continues. -/
theorem tafm_cons_neg {m : FileMap} {rest : List FileMap} {index last_index : Nat}
    (h : cmp_file_map m ⟨index, last_index + 1⟩ < 0) :
    trace_add_file_map (m :: rest) index last_index =
      m :: trace_add_file_map rest index last_index := by
  simp only [trace_add_file_map]
  rw [if_pos h]

/-- Rewriting lemma: at a range entirely above the key, the key is inserted
(the add_map path). -/
theorem tafm_cons_pos {m : FileMap} {rest : List FileMap} {index last_index : Nat}
    (h : 0 < cmp_file_map m ⟨index, last_index + 1⟩) :
    trace_add_file_map (m :: rest) index last_index =
      ⟨index, last_index + 1⟩ :: m :: rest := by
  simp only [trace_add_file_map]
  rw [if_neg (by omega), if_pos h]

/-- Rewriting lemma: at a matching range the run merge starts. -/
theorem tafm_cons_zero {m : FileMap} {rest : List FileMap} {index last_index : Nat}
    (h : cmp_file_map m ⟨index, last_index + 1⟩ = 0) :
    trace_add_file_map (m :: rest) index last_index =
      merge_run ⟨index, last_index + 1⟩ m m.end_ rest := by
  simp only [trace_add_file_map]
  rw [if_neg (by omega), if_neg (by omega)]

/-- Main specification of one trace_add_file_map call on a well-formed map
array: the invariant is preserved, every resulting range starts at or after
the key start or at or after the start of some existing range, and the
covered set grows by exactly the pages [index, last_index]. -/
theorem trace_add_file_map_spec (index last_index : Nat) (hil : index ≤ last_index) :
    ∀ maps : List FileMap, FileMapsWF maps →
      FileMapsWF (trace_add_file_map maps index last_index) ∧
      (∀ m' ∈ trace_add_file_map maps index last_index,
          index ≤ m'.start ∨ ∃ m ∈ maps, m.start ≤ m'.start) ∧
      (∀ p : Nat, covered (trace_add_file_map maps index last_index) p ↔
          (covered maps p ∨ (index ≤ p ∧ p ≤ last_index))) := by
  intro maps
  induction maps with
  | nil =>
    intro _
    refine ⟨⟨?_, ?_⟩, ?_, ?_⟩
    · intro m hm
      have hm' : m = ⟨index, last_index + 1⟩ := by
        simpa [trace_add_file_map] using hm
      subst hm'
      show index < last_index + 1
      omega
    · show List.Pairwise _ [(⟨index, last_index + 1⟩ : FileMap)]
      exact List.pairwise_singleton _ _
    · intro m' hm'
      have hm'' : m' = ⟨index, last_index + 1⟩ := by
        simpa [trace_add_file_map] using hm'
      subst hm''
      exact Or.inl (le_refl index)
    · intro p
      show covered [(⟨index, last_index + 1⟩ : FileMap)] p ↔ covered [] p ∨ _
      rw [covered_cons]
      constructor
      · rintro (⟨h1, h2⟩ | h)
        · have h2' : p < last_index + 1 := h2
          exact Or.inr ⟨h1, by omega⟩
        · exact absurd h (covered_nil p)
      · rintro (h | ⟨h1, h2⟩)
        · exact absurd h (covered_nil p)
        · exact Or.inl ⟨h1, show p < last_index + 1 by omega⟩
  | cons m rest ih =>
    intro hwf
    obtain ⟨hmp, hmlt, hwfr⟩ := FileMapsWF_cons.mp hwf
    rcases cmp_file_map_cases m ⟨index, last_index + 1⟩ with hc | hc | hc
    · -- m lies entirely below the key: it is kept and the scan continues
      have hme : m.end_ < index :=
        (cmp_file_map_neg_iff m ⟨index, last_index + 1⟩).mp (by omega)
      rw [tafm_cons_neg (by omega)]
      obtain ⟨ihwf, ihbound, ihcov⟩ := ih hwfr
      refine ⟨?_, ?_, ?_⟩
      · rw [FileMapsWF_cons]
        refine ⟨hmp, ?_, ihwf⟩
        intro x hx
        rcases ihbound x hx with h | ⟨mm, hmm, hle⟩
        · omega
        · have := hmlt mm hmm
          omega
      · intro m' hm'
        rcases List.mem_cons.mp hm' with rfl | hm'
        · exact Or.inr ⟨m', List.mem_cons_self _ _, le_refl _⟩
        · rcases ihbound m' hm' with h | ⟨mm, hmm, hle⟩
          · exact Or.inl h
          · exact Or.inr ⟨mm, List.mem_cons_of_mem _ hmm, hle⟩
      · intro p
        rw [covered_cons, covered_cons, ihcov p]
        tauto
    · -- m overlaps or touches the key: the run starting at m is merged
      have hz1 : index ≤ m.end_ :=
        ((cmp_file_map_zero_iff m ⟨index, last_index + 1⟩).mp hc).1
      have hz2 : m.start ≤ last_index + 1 :=
        ((cmp_file_map_zero_iff m ⟨index, last_index + 1⟩).mp hc).2
      rw [tafm_cons_zero hc, merge_run_eq index (last_index + 1) m]
      set run := rest.takeWhile (fun x => cmp_file_map x ⟨index, last_index + 1⟩ = 0)
        with hrun_def
      set above := rest.dropWhile (fun x => cmp_file_map x ⟨index, last_index + 1⟩ = 0)
        with habove_def
      set R := run_last_end m.end_ run with hR_def
      have hsplit : rest = run ++ above := by
        rw [hrun_def, habove_def]
        simp
      have hrestp : ∀ x ∈ rest, x.start < x.end_ := fun x hx => hwfr.1 x hx
      have hrun_sub : ∀ x ∈ run, x ∈ rest := fun x hx =>
        (List.takeWhile_sublist _).subset (hrun_def ▸ hx)
      have habove_sub : ∀ y ∈ above, y ∈ rest := fun y hy =>
        (List.dropWhile_sublist _).subset (habove_def ▸ hy)
      have hrun0 : ∀ x ∈ run, cmp_file_map x ⟨index, last_index + 1⟩ = 0 := by
        intro x hx
        have h := List.mem_takeWhile_imp (hrun_def ▸ hx)
        simp only [decide_eq_true_eq] at h
        exact h
      have hrunpw : run.Pairwise (fun a b => a.end_ < b.start) := by
        rw [hrun_def]
        exact List.Pairwise.sublist (List.takeWhile_sublist _) hwfr.2
      have habove1 : ∀ y ∈ above, 0 < cmp_file_map y ⟨index, last_index + 1⟩ := by
        intro y hy
        refine dropWhile_zero_pos ⟨index, last_index + 1⟩ rest hrestp hwfr.2 ?_ y
          (habove_def ▸ hy)
        intro x hx
        have := cmp_file_map_mono ⟨index, last_index + 1⟩ hmp (hrestp x hx) (hmlt x hx)
        omega
      have habove2 : ∀ y ∈ above, last_index + 1 < y.start := fun y hy =>
        ((cmp_file_map_pos_iff y ⟨index, last_index + 1⟩).mp (habove1 y hy)).2
      have hrle := run_last_end_ge m.end_ run
        (fun x hx => hrestp x (hrun_sub x hx)) hrunpw
        (fun x hx => le_of_lt (lt_trans (hmlt x (hrun_sub x hx)) (hrestp x (hrun_sub x hx))))
      have hrle1 : m.end_ ≤ R := by rw [hR_def]; exact hrle.1
      have hrle2 : ∀ x ∈ run, x.end_ ≤ R := by rw [hR_def]; exact hrle.2
      have hRmem : R = m.end_ ∨ ∃ x ∈ run, R = x.end_ := by
        rw [hR_def]
        exact run_last_end_mem m.end_ run
      have hpw_app : (run ++ above).Pairwise (fun a b => a.end_ < b.start) :=
        hsplit ▸ hwfr.2
      have hcross : ∀ x ∈ run, ∀ y ∈ above, x.end_ < y.start :=
        (List.pairwise_append.mp hpw_app).2.2
      have hRlt : ∀ y ∈ above, R < y.start := by
        intro y hy
        rcases hRmem with hR | ⟨x, hx, hR⟩
        · rw [hR]
          exact hmlt y (habove_sub y hy)
        · rw [hR]
          exact hcross x hx y hy
      refine ⟨?_, ?_, ?_⟩
      · rw [FileMapsWF_cons]
        refine ⟨?_, ?_, ?_⟩
        · show min m.start index < max R (last_index + 1)
          omega
        · intro y hy
          show max R (last_index + 1) < y.start
          have h1 := hRlt y hy
          have h2 := habove2 y hy
          omega
        · refine ⟨fun y hy => hrestp y (habove_sub y hy), ?_⟩
          rw [habove_def]
          exact List.Pairwise.sublist (List.dropWhile_sublist _) hwfr.2
      · intro m' hm'
        rcases List.mem_cons.mp hm' with rfl | hm'
        · by_cases hcase : index ≤ min m.start index
          · exact Or.inl hcase
          · refine Or.inr ⟨m, List.mem_cons_self _ _, ?_⟩
            show m.start ≤ min m.start index
            omega
        · exact Or.inr ⟨m', List.mem_cons_of_mem _ (habove_sub m' hm'), le_refl _⟩
      · intro p
        have hkey_iff : (min m.start index ≤ p ∧ p < max R (last_index + 1)) ↔
            ((m.start ≤ p ∧ p < m.end_) ∨ (∃ x ∈ run, x.start ≤ p ∧ p < x.end_) ∨
              (index ≤ p ∧ p < last_index + 1)) := by
          constructor
          · rintro ⟨h1, h2⟩
            by_cases hpk : p < index
            · exact Or.inl ⟨by omega, by omega⟩
            · by_cases hpk2 : p < last_index + 1
              · exact Or.inr (Or.inr ⟨by omega, hpk2⟩)
              · have hpR : p < R := by omega
                rcases hRmem with hR | ⟨x, hx, hR⟩
                · exact Or.inl ⟨by omega, by omega⟩
                · refine Or.inr (Or.inl ⟨x, hx, ?_, ?_⟩)
                  · have hx2 : x.start ≤ last_index + 1 :=
                      ((cmp_file_map_zero_iff x ⟨index, last_index + 1⟩).mp (hrun0 x hx)).2
                    omega
                  · omega
          · rintro (⟨h1, h2⟩ | ⟨x, hx, hxs, hxe⟩ | ⟨h1, h2⟩)
            · exact ⟨by omega, by omega⟩
            · have hmx := hmlt x (hrun_sub x hx)
              have hxR := hrle2 x hx
              exact ⟨by omega, by omega⟩
            · exact ⟨by omega, by omega⟩
        rw [covered_cons, covered_cons, hsplit, covered_append]
        constructor
        · rintro (hmg | hab)
          · rcases hkey_iff.mp hmg with h | h | h
            · exact Or.inl (Or.inl h)
            · exact Or.inl (Or.inr (Or.inl h))
            · exact Or.inr ⟨h.1, by omega⟩
          · exact Or.inl (Or.inr (Or.inr hab))
        · rintro ((hm2 | hrun2 | hab) | hk)
          · exact Or.inl (hkey_iff.mpr (Or.inl hm2))
          · exact Or.inl (hkey_iff.mpr (Or.inr (Or.inl hrun2)))
          · exact Or.inr hab
          · exact Or.inl (hkey_iff.mpr (Or.inr (Or.inr ⟨hk.1, by omega⟩)))
    · -- m lies entirely above the key: the key is inserted before it
      have hpos := (cmp_file_map_pos_iff m ⟨index, last_index + 1⟩).mp (by omega)
      have hpos1 : index ≤ m.end_ := hpos.1
      have hpos2 : last_index + 1 < m.start := hpos.2
      rw [tafm_cons_pos (by omega)]
      refine ⟨?_, ?_, ?_⟩
      · rw [FileMapsWF_cons]
        refine ⟨?_, ?_, hwf⟩
        · show index < last_index + 1
          omega
        · intro x hx
          show last_index + 1 < x.start
          rcases List.mem_cons.mp hx with rfl | hx
          · exact hpos2
          · have := hmlt x hx
            omega
      · intro m' hm'
        rcases List.mem_cons.mp hm' with rfl | hm'
        · exact Or.inl (le_refl index)
        · exact Or.inr ⟨m', hm', le_refl _⟩
      · intro p
        rw [covered_cons, covered_cons]
        have hkiff : ((⟨index, last_index + 1⟩ : FileMap).start ≤ p ∧
              p < (⟨index, last_index + 1⟩ : FileMap).end_) ↔
            (index ≤ p ∧ p ≤ last_index) := by
          show (index ≤ p ∧ p < last_index + 1) ↔ _
          omega
        rw [hkiff]
        tauto

/-- Unfolding lemma for covered. -/
theorem covered_iff (maps : List FileMap) (p : Nat) :
    covered maps p ↔ ∃ m ∈ maps, m.start ≤ p ∧ p < m.end_ := Iff.rfl

/-- Extensionality for FileMap. -/
theorem file_map_ext (a b : FileMap) (h1 : a.start = b.start)
    (h2 : a.end_ = b.end_) : a = b := by
  cases a
  cases b
  simp_all

/-- Fidelity of the scan to the two-function source structure: when no
existing range overlaps or touches the key (the bsearch of trace.c:1496
fails), trace_add_file_map inserts the key exactly where add_map does. -/
theorem trace_add_file_map_no_touch_eq_add_map (index last_index : Nat) :
    ∀ maps : List FileMap, FileMapsWF maps →
      (∀ m ∈ maps, cmp_file_map m ⟨index, last_index + 1⟩ ≠ 0) →
      trace_add_file_map maps index last_index = add_map maps index last_index := by
  intro maps
  induction maps with
  | nil => intro _ _; rfl
  | cons m rest ih =>
    intro hwf hnt
    obtain ⟨hmp, hmlt, hwfr⟩ := FileMapsWF_cons.mp hwf
    rcases cmp_file_map_cases m ⟨index, last_index + 1⟩ with hc | hc | hc
    · have hme : m.end_ < index :=
        (cmp_file_map_neg_iff m ⟨index, last_index + 1⟩).mp (by omega)
      rw [tafm_cons_neg (by omega), ih hwfr (fun x hx => hnt x (List.mem_cons_of_mem _ hx))]
      unfold add_map
      rw [List.takeWhile_cons_of_pos (by simp only [decide_eq_true_eq]; exact hme),
          List.dropWhile_cons_of_pos (by simp only [decide_eq_true_eq]; exact hme)]
      rfl
    · exact absurd hc (hnt m (List.mem_cons_self _ _))
    · have hpos := (cmp_file_map_pos_iff m ⟨index, last_index + 1⟩).mp (by omega)
      have hge : ¬ (m.end_ < index) := by
        have h1 : index ≤ m.end_ := hpos.1
        omega
      rw [tafm_cons_pos (by omega)]
      unfold add_map
      rw [List.takeWhile_cons_of_neg (by simp only [decide_eq_true_eq]; exact hge),
          List.dropWhile_cons_of_neg (by simp only [decide_eq_true_eq]; exact hge)]
      rfl

/-- Two well-formed map arrays with the same covered set are equal: the
sorted, non-overlapping, non-touching array is a normal form of the set. -/
theorem covered_ext :
    ∀ (l₁ l₂ : List FileMap), FileMapsWF l₁ → FileMapsWF l₂ →
      (∀ p, covered l₁ p ↔ covered l₂ p) → l₁ = l₂
  | [], [] => fun _ _ _ => rfl
  | [], b :: l₂ => fun _ hwf2 hcov => by
    obtain ⟨hbp, _, _⟩ := FileMapsWF_cons.mp hwf2
    have h : covered (b :: l₂) b.start := ⟨b, List.mem_cons_self _ _, le_refl _, hbp⟩
    exact absurd ((hcov b.start).mpr h) (covered_nil _)
  | a :: l₁, [] => fun hwf1 _ hcov => by
    obtain ⟨hap, _, _⟩ := FileMapsWF_cons.mp hwf1
    have h : covered (a :: l₁) a.start := ⟨a, List.mem_cons_self _ _, le_refl _, hap⟩
    exact absurd ((hcov a.start).mp h) (covered_nil _)
  | a :: l₁, b :: l₂ => fun hwf1 hwf2 hcov => by
    obtain ⟨hap, halt, hwf1'⟩ := FileMapsWF_cons.mp hwf1
    obtain ⟨hbp, hblt, hwf2'⟩ := FileMapsWF_cons.mp hwf2
    have hsab : b.start ≤ a.start := by
      have h1 := (hcov a.start).mp ⟨a, List.mem_cons_self _ _, le_refl _, hap⟩
      obtain ⟨x, hx, hxs, hxe⟩ := (covered_iff _ _).mp h1
      rcases List.mem_cons.mp hx with rfl | hx
      · exact hxs
      · have h2 := hblt x hx
        omega
    have hsba : a.start ≤ b.start := by
      have h1 := (hcov b.start).mpr ⟨b, List.mem_cons_self _ _, le_refl _, hbp⟩
      obtain ⟨x, hx, hxs, hxe⟩ := (covered_iff _ _).mp h1
      rcases List.mem_cons.mp hx with rfl | hx
      · exact hxs
      · have h2 := halt x hx
        omega
    have hstart : a.start = b.start := le_antisymm hsba hsab
    have hend1 : ¬ (a.end_ < b.end_) := by
      intro hlt
      have hc : covered (b :: l₂) a.end_ :=
        ⟨b, List.mem_cons_self _ _, by omega, hlt⟩
      obtain ⟨x, hx, hxs, hxe⟩ := (covered_iff _ _).mp ((hcov a.end_).mpr hc)
      rcases List.mem_cons.mp hx with rfl | hx
      · omega
      · have := halt x hx
        omega
    have hend2 : ¬ (b.end_ < a.end_) := by
      intro hlt
      have hc : covered (a :: l₁) b.end_ :=
        ⟨a, List.mem_cons_self _ _, by omega, hlt⟩
      obtain ⟨x, hx, hxs, hxe⟩ := (covered_iff _ _).mp ((hcov b.end_).mp hc)
      rcases List.mem_cons.mp hx with rfl | hx
      · omega
      · have := hblt x hx
        omega
    have hend : a.end_ = b.end_ := by omega
    have hhead : a = b := file_map_ext a b hstart hend
    subst hhead
    have hcov' : ∀ p, covered l₁ p ↔ covered l₂ p := by
      intro p
      constructor
      · intro h
        obtain ⟨x, hx, hxs, hxe⟩ := (covered_iff _ _).mp h
        have hxa := halt x hx
        obtain ⟨y, hy, hys, hye⟩ := (covered_iff _ _).mp
          ((hcov p).mp ⟨x, List.mem_cons_of_mem _ hx, hxs, hxe⟩)
        rcases List.mem_cons.mp hy with rfl | hy
        · omega
        · exact ⟨y, hy, hys, hye⟩
      · intro h
        obtain ⟨x, hx, hxs, hxe⟩ := (covered_iff _ _).mp h
        have hxa := hblt x hx
        obtain ⟨y, hy, hys, hye⟩ := (covered_iff _ _).mp
          ((hcov p).mpr ⟨x, List.mem_cons_of_mem _ hx, hxs, hxe⟩)
        rcases List.mem_cons.mp hy with rfl | hy
        · omega
        · exact ⟨y, hy, hys, hye⟩
    rw [covered_ext l₁ l₂ hwf1' hwf2' hcov']

/-- record_access over a call list from any well-formed starting array:
the invariant holds afterwards and the covered set is the old one united
with the pages of the calls. -/
theorem record_access_fold_go (calls : List (Nat × Nat)) :
    ∀ acc : List FileMap, FileMapsWF acc → (∀ c ∈ calls, c.1 ≤ c.2) →
      FileMapsWF (calls.foldl (fun ms c => trace_add_file_map ms c.1 c.2) acc) ∧
      ∀ p : Nat,
        covered (calls.foldl (fun ms c => trace_add_file_map ms c.1 c.2) acc) p ↔
          (covered acc p ∨ ∃ c ∈ calls, c.1 ≤ p ∧ p ≤ c.2) := by
  induction calls with
  | nil =>
    intro acc hwf _
    refine ⟨hwf, ?_⟩
    intro p
    simp
  | cons c calls ih =>
    intro acc hwf hcalls
    have hc1 : c.1 ≤ c.2 := hcalls c (List.mem_cons_self _ _)
    obtain ⟨hwf1, _, hcov1⟩ := trace_add_file_map_spec c.1 c.2 hc1 acc hwf
    obtain ⟨hwf2, hcov2⟩ := ih (trace_add_file_map acc c.1 c.2) hwf1
      (fun x hx => hcalls x (List.mem_cons_of_mem _ hx))
    simp only [List.foldl_cons]
    refine ⟨hwf2, ?_⟩
    intro p
    rw [hcov2 p, hcov1 p]
    constructor
    · rintro ((h | hk) | ⟨x, hx, hxp⟩)
      · exact Or.inl h
      · exact Or.inr ⟨c, List.mem_cons_self _ _, hk⟩
      · exact Or.inr ⟨x, List.mem_cons_of_mem _ hx, hxp⟩
    · rintro (h | ⟨x, hx, hxp⟩)
      · exact Or.inl (Or.inl h)
      · rcases List.mem_cons.mp hx with rfl | hx
        · exact Or.inl (Or.inr hxp)
        · exact Or.inr ⟨x, hx, hxp⟩

/-- **C2**.  For one inode and every finite sequence of record_access calls,
each with first_index ≤ last_index, the resulting range array is sorted
ascending by start, every entry has start < end, adjacent entries neither
overlap nor touch (a.end < b.start), and a page index p is covered by the
union of the stored ranges iff some call had first_index ≤ p ≤ last_index. -/
theorem record_access_invariants (calls : List (Nat × Nat))
    (h : ∀ c ∈ calls, c.1 ≤ c.2) :
    (record_access_fold calls).Pairwise (fun a b => a.start < b.start) ∧
    (∀ m ∈ record_access_fold calls, m.start < m.end_) ∧
    (record_access_fold calls).Pairwise (fun a b => a.end_ < b.start) ∧
    (∀ p : Nat, covered (record_access_fold calls) p ↔
        ∃ c ∈ calls, c.1 ≤ p ∧ p ≤ c.2) := by
  simp only [record_access_fold]
  obtain ⟨hwf, hcov⟩ := record_access_fold_go calls [] ⟨by simp, List.Pairwise.nil⟩ h
  refine ⟨?_, hwf.1, hwf.2, ?_⟩
  · refine List.Pairwise.imp_of_mem ?_ hwf.2
    intro a b ha hb hlt
    have := hwf.1 a ha
    omega
  · intro p
    rw [hcov p]
    constructor
    · rintro (h0 | hex)
      · exact absurd h0 (covered_nil p)
      · exact hex
    · exact fun hex => Or.inr hex

/-- Witness for C2 at the concrete S1 call sequence. -/
theorem record_access_invariants_witness :
    (∀ c ∈ s1_calls, c.1 ≤ c.2) ∧
    ((record_access_fold s1_calls).Pairwise (fun a b => a.start < b.start) ∧
     (∀ m ∈ record_access_fold s1_calls, m.start < m.end_) ∧
     (record_access_fold s1_calls).Pairwise (fun a b => a.end_ < b.start) ∧
     (∀ p : Nat, covered (record_access_fold s1_calls) p ↔
         ∃ c ∈ s1_calls, c.1 ≤ p ∧ p ≤ c.2)) :=
  ⟨by decide, record_access_invariants s1_calls (by decide)⟩

/-- **C5**.  The range-merge structure is order-independent: two permutations
of the same multiset of record_access calls produce identical range arrays. -/
theorem record_access_order_independent (calls1 calls2 : List (Nat × Nat))
    (hperm : calls1.Perm calls2) (h : ∀ c ∈ calls1, c.1 ≤ c.2) :
    record_access_fold calls1 = record_access_fold calls2 := by
  have h2 : ∀ c ∈ calls2, c.1 ≤ c.2 := fun c hc => h c (hperm.mem_iff.mpr hc)
  obtain ⟨hwf1, hcov1⟩ := record_access_fold_go calls1 [] ⟨by simp, List.Pairwise.nil⟩ h
  obtain ⟨hwf2, hcov2⟩ := record_access_fold_go calls2 [] ⟨by simp, List.Pairwise.nil⟩ h2
  simp only [record_access_fold]
  apply covered_ext _ _ hwf1 hwf2
  intro p
  rw [hcov1 p, hcov2 p]
  constructor
  · rintro (h0 | ⟨c, hc, hcp⟩)
    · exact Or.inl h0
    · exact Or.inr ⟨c, hperm.mem_iff.mp hc, hcp⟩
  · rintro (h0 | ⟨c, hc, hcp⟩)
    · exact Or.inl h0
    · exact Or.inr ⟨c, hperm.mem_iff.mpr hc, hcp⟩

/-- Witness for C5 at a concrete permutation pair of the S1 sequence. -/
theorem record_access_order_independent_witness :
    s1_calls.Perm s1_calls_perm ∧ (∀ c ∈ s1_calls, c.1 ≤ c.2) ∧
    record_access_fold s1_calls = record_access_fold s1_calls_perm :=
  ⟨by decide, by decide,
    record_access_order_independent s1_calls s1_calls_perm (by decide) (by decide)⟩

/-- Rewriting lemma: the inner loop breaks before a range entirely above the
block. -/
theorem emit_blocks_break {block : PackBlock} {br r : FileMap} {rest : List FileMap}
    (h : 0 < cmp_file_map r br) :
    emit_blocks block br (r :: rest) = ([], r :: rest) := by
  simp only [emit_blocks]
  rw [if_pos h]

/-- Rewriting lemma: a range extending past the block keeps the cursor. -/
theorem emit_blocks_stay {block : PackBlock} {br r : FileMap} {rest : List FileMap}
    (h1 : ¬ 0 < cmp_file_map r br) (h2 : br.end_ < r.end_) :
    emit_blocks block br (r :: rest) = (emit_piece block r, r :: rest) := by
  simp only [emit_blocks]
  rw [if_neg h1, if_pos h2]

/-- Rewriting lemma: otherwise the cursor advances past the range. -/
theorem emit_blocks_pass {block : PackBlock} {br r : FileMap} {rest : List FileMap}
    (h1 : ¬ 0 < cmp_file_map r br) (h2 : ¬ br.end_ < r.end_) :
    emit_blocks block br (r :: rest) =
      (emit_piece block r ++ (emit_blocks block br rest).1,
        (emit_blocks block br rest).2) := by
  simp only [emit_blocks]
  rw [if_neg h1, if_neg h2]

/-- Every emitted piece names the block's path, has positive length, and lies
within both its range (in bytes of whole pages) and the block. -/
theorem emit_piece_mem {block : PackBlock} {range : FileMap} {e : PackBlock}
    (he : e ∈ emit_piece block range) :
    e.pathidx = block.pathidx ∧ 0 < e.length ∧
    range.start * PAGE_SIZE ≤ e.offset ∧
    e.offset + e.length ≤ range.end_ * PAGE_SIZE ∧
    block.offset ≤ e.offset ∧ e.offset + e.length ≤ block.offset + block.length := by
  unfold emit_piece at he
  by_cases h : max (range.start * PAGE_SIZE) block.offset <
      min (range.end_ * PAGE_SIZE) (block.offset + block.length)
  · rw [if_pos h] at he
    have he' : e = ⟨block.pathidx, max (range.start * PAGE_SIZE) block.offset,
        min (range.end_ * PAGE_SIZE) (block.offset + block.length) -
          max (range.start * PAGE_SIZE) block.offset,
        block.physical + (max (range.start * PAGE_SIZE) block.offset : Int) -
          (block.offset : Int)⟩ := by
      simpa using he
    subst he'
    refine ⟨rfl, ?_, ?_, ?_, ?_, ?_⟩
    · show 0 < min (range.end_ * PAGE_SIZE) (block.offset + block.length) -
        max (range.start * PAGE_SIZE) block.offset
      omega
    · show range.start * PAGE_SIZE ≤ max (range.start * PAGE_SIZE) block.offset
      omega
    · show max (range.start * PAGE_SIZE) block.offset +
        (min (range.end_ * PAGE_SIZE) (block.offset + block.length) -
          max (range.start * PAGE_SIZE) block.offset) ≤ range.end_ * PAGE_SIZE
      omega
    · show block.offset ≤ max (range.start * PAGE_SIZE) block.offset
      omega
    · show max (range.start * PAGE_SIZE) block.offset +
        (min (range.end_ * PAGE_SIZE) (block.offset + block.length) -
          max (range.start * PAGE_SIZE) block.offset) ≤
        block.offset + block.length
      omega
  · rw [if_neg h] at he
    simp at he

/-- A byte x of the block whose page lies within the range is contained in
the emitted piece. -/
theorem emit_piece_covers {block : PackBlock} {r : FileMap} {x : Nat}
    (hx1 : block.offset ≤ x) (hx2 : x < block.offset + block.length)
    (hrs : r.start ≤ x / PAGE_SIZE) (hre : x / PAGE_SIZE < r.end_) :
    ∃ e ∈ emit_piece block r,
      e.pathidx = block.pathidx ∧ e.offset ≤ x ∧ x < e.offset + e.length := by
  unfold emit_piece
  simp only [PAGE_SIZE] at *
  rw [if_pos (by omega)]
  refine ⟨_, List.mem_singleton_self _, rfl, ?_, ?_⟩
  · show max (r.start * 4096) block.offset ≤ x
    omega
  · show x < max (r.start * 4096) block.offset +
      (min (r.end_ * 4096) (block.offset + block.length) -
        max (r.start * 4096) block.offset)
    omega

/-- Soundness of the inner loop: every emitted block names the current path,
is non-empty, and lies within whole pages of one of the cursor ranges. -/
theorem emit_blocks_sound (block : PackBlock) (br : FileMap) :
    ∀ ms : List FileMap, ∀ e ∈ (emit_blocks block br ms).1,
      e.pathidx = block.pathidx ∧ 0 < e.length ∧
      ∃ r ∈ ms, r.start * PAGE_SIZE ≤ e.offset ∧
        e.offset + e.length ≤ r.end_ * PAGE_SIZE
  | [] => by
    intro e he
    simp [emit_blocks] at he
  | r :: rest => by
    intro e he
    by_cases h1 : 0 < cmp_file_map r br
    · rw [emit_blocks_break h1] at he
      simp at he
    · by_cases h2 : br.end_ < r.end_
      · rw [emit_blocks_stay h1 h2] at he
        obtain ⟨hp, hl, hs, hE, _, _⟩ := emit_piece_mem he
        exact ⟨hp, hl, r, List.mem_cons_self _ _, hs, hE⟩
      · rw [emit_blocks_pass h1 h2] at he
        rcases List.mem_append.mp he with he | he
        · obtain ⟨hp, hl, hs, hE, _, _⟩ := emit_piece_mem he
          exact ⟨hp, hl, r, List.mem_cons_self _ _, hs, hE⟩
        · obtain ⟨hp, hl, x, hx, hs, hE⟩ := emit_blocks_sound block br rest e he
          exact ⟨hp, hl, x, List.mem_cons_of_mem _ hx, hs, hE⟩

/-- The cursor after the inner loop is a suffix of its input, and every range
passed over ends at or before the block's page end. -/
theorem emit_blocks_consumed (block : PackBlock) (br : FileMap) :
    ∀ ms : List FileMap, ∃ consumed,
      ms = consumed ++ (emit_blocks block br ms).2 ∧
      ∀ r ∈ consumed, r.end_ ≤ br.end_
  | [] => ⟨[], by simp [emit_blocks], by simp⟩
  | r :: rest => by
    by_cases h1 : 0 < cmp_file_map r br
    · exact ⟨[], by rw [emit_blocks_break h1]; rfl, by simp⟩
    · by_cases h2 : br.end_ < r.end_
      · exact ⟨[], by rw [emit_blocks_stay h1 h2]; rfl, by simp⟩
      · obtain ⟨consumed, hceq, hcle⟩ := emit_blocks_consumed block br rest
        refine ⟨r :: consumed, ?_, ?_⟩
        · rw [emit_blocks_pass h1 h2, List.cons_append, ← hceq]
        · intro y hy
          rcases List.mem_cons.mp hy with rfl | hy
          · omega
          · exact hcle y hy

/-- Completeness of the inner loop on a sorted, non-touching cursor of proper
ranges: a byte of the block whose page is covered by some cursor range ends
up inside an emitted block.  The cursor never breaks before reaching the
covering range, because every earlier range ends before that range starts
and hence at or before the block's page end. -/
theorem emit_blocks_complete (block : PackBlock) :
    ∀ ms : List FileMap,
      (∀ s ∈ ms, s.start < s.end_) →
      ms.Pairwise (fun a b => a.end_ < b.start) →
      ∀ r ∈ ms, ∀ x : Nat,
        block.offset ≤ x → x < block.offset + block.length →
        r.start ≤ x / PAGE_SIZE → x / PAGE_SIZE < r.end_ →
        ∃ e ∈ (emit_blocks block (page_range block) ms).1,
          e.pathidx = block.pathidx ∧ e.offset ≤ x ∧ x < e.offset + e.length
  | [] => by
    intro _ _ r hr
    simp at hr
  | s :: rest => by
    intro hp hpw r hr x hx1 hx2 hrs hre
    have hxple : x / PAGE_SIZE ≤ (block.offset + block.length) / PAGE_SIZE :=
      Nat.div_le_div_right (by omega)
    have hxpge : block.offset / PAGE_SIZE ≤ x / PAGE_SIZE :=
      Nat.div_le_div_right hx1
    rcases List.mem_cons.mp hr with heq | hr
    · -- the head s is the covering range
      have hss : s.start ≤ x / PAGE_SIZE := by rw [← heq]; exact hrs
      have hse : x / PAGE_SIZE < s.end_ := by rw [← heq]; exact hre
      have hnb : ¬ 0 < cmp_file_map s (page_range block) := by
        rw [cmp_file_map_pos_iff]
        rintro ⟨-, hcon⟩
        have hcon' : (block.offset + block.length) / PAGE_SIZE < s.start := hcon
        omega
      obtain ⟨e, he, hep, heo, hee⟩ := emit_piece_covers hx1 hx2 hss hse
      by_cases h2 : (page_range block).end_ < s.end_
      · rw [emit_blocks_stay hnb h2]
        exact ⟨e, he, hep, heo, hee⟩
      · rw [emit_blocks_pass hnb h2]
        exact ⟨e, List.mem_append_left _ he, hep, heo, hee⟩
    · -- the covering range lies beyond the head s
      obtain ⟨hslt, hpw'⟩ := List.pairwise_cons.mp hpw
      have hsr : s.end_ < r.start := hslt r hr
      have hsp : s.start < s.end_ := hp s (List.mem_cons_self _ _)
      have hnb : ¬ 0 < cmp_file_map s (page_range block) := by
        rw [cmp_file_map_pos_iff]
        rintro ⟨-, hcon⟩
        have hcon' : (block.offset + block.length) / PAGE_SIZE < s.start := hcon
        omega
      have hnstay : ¬ (page_range block).end_ < s.end_ := by
        intro hcon
        have hcon' : (block.offset + block.length) / PAGE_SIZE < s.end_ := hcon
        omega
      rw [emit_blocks_pass hnb hnstay]
      obtain ⟨e, he, hep, heo, hee⟩ := emit_blocks_complete block rest
        (fun y hy => hp y (List.mem_cons_of_mem _ hy)) hpw' r hr x hx1 hx2 hrs hre
      exact ⟨e, List.mem_append_right _ he, hep, heo, hee⟩

/-- Rewriting lemma: same path as the previous block, no reload. -/
theorem rub_loop_cons_same {lookup : Nat → Option (List FileMap)} {cur : Option Nat}
    {ms : List FileMap} {block : PackBlock} {rest : List PackBlock}
    (h : cur = some block.pathidx) :
    remove_untouched_loop lookup cur ms (block :: rest) =
      (emit_blocks block (page_range block)
          (ms.dropWhile (fun r => cmp_file_map r (page_range block) < 0))).1 ++
        remove_untouched_loop lookup cur
          (emit_blocks block (page_range block)
            (ms.dropWhile (fun r => cmp_file_map r (page_range block) < 0))).2 rest := by
  simp only [remove_untouched_loop]
  rw [if_pos h]

/-- Rewriting lemma: path change with no device or inode entry — the
open-only marker is emitted and the cursor emptied. -/
theorem rub_loop_cons_none {lookup : Nat → Option (List FileMap)} {cur : Option Nat}
    {ms : List FileMap} {block : PackBlock} {rest : List PackBlock}
    (h : ¬ cur = some block.pathidx) (hl : lookup block.pathidx = none) :
    remove_untouched_loop lookup cur ms (block :: rest) =
      ⟨block.pathidx, 0, 0, 0⟩ ::
        remove_untouched_loop lookup (some block.pathidx) [] rest := by
  simp only [remove_untouched_loop]
  rw [if_neg h, hl]

/-- Rewriting lemma: path change with the inode present — its maps are
loaded. -/
theorem rub_loop_cons_load {lookup : Nat → Option (List FileMap)} {cur : Option Nat}
    {ms : List FileMap} {block : PackBlock} {rest : List PackBlock}
    {M : List FileMap}
    (h : ¬ cur = some block.pathidx) (hl : lookup block.pathidx = some M) :
    remove_untouched_loop lookup cur ms (block :: rest) =
      (emit_blocks block (page_range block)
          (M.dropWhile (fun r => cmp_file_map r (page_range block) < 0))).1 ++
        remove_untouched_loop lookup (some block.pathidx)
          (emit_blocks block (page_range block)
            (M.dropWhile (fun r => cmp_file_map r (page_range block) < 0))).2 rest := by
  simp only [remove_untouched_loop]
  rw [if_neg h, hl]

/-- Rewriting lemmas for the state function, mirroring the loop. -/
theorem rub_state_cons_same {lookup : Nat → Option (List FileMap)} {cur : Option Nat}
    {ms : List FileMap} {block : PackBlock} {rest : List PackBlock}
    (h : cur = some block.pathidx) :
    remove_untouched_state lookup cur ms (block :: rest) =
      remove_untouched_state lookup cur
        (emit_blocks block (page_range block)
          (ms.dropWhile (fun r => cmp_file_map r (page_range block) < 0))).2 rest := by
  simp only [remove_untouched_state]
  rw [if_pos h]

theorem rub_state_cons_none {lookup : Nat → Option (List FileMap)} {cur : Option Nat}
    {ms : List FileMap} {block : PackBlock} {rest : List PackBlock}
    (h : ¬ cur = some block.pathidx) (hl : lookup block.pathidx = none) :
    remove_untouched_state lookup cur ms (block :: rest) =
      remove_untouched_state lookup (some block.pathidx) [] rest := by
  simp only [remove_untouched_state]
  rw [if_neg h, hl]

theorem rub_state_cons_load {lookup : Nat → Option (List FileMap)} {cur : Option Nat}
    {ms : List FileMap} {block : PackBlock} {rest : List PackBlock}
    {M : List FileMap}
    (h : ¬ cur = some block.pathidx) (hl : lookup block.pathidx = some M) :
    remove_untouched_state lookup cur ms (block :: rest) =
      remove_untouched_state lookup (some block.pathidx)
        (emit_blocks block (page_range block)
          (M.dropWhile (fun r => cmp_file_map r (page_range block) < 0))).2 rest := by
  simp only [remove_untouched_state]
  rw [if_neg h, hl]

/-- Along a chain of per-path-disjoint ascending blocks, the head precedes
every block of its contiguous run. -/
theorem chain_run_le :
    ∀ (rest : List PackBlock) (b : PackBlock),
      List.Chain' (fun a c => a.pathidx = c.pathidx → a.offset + a.length ≤ c.offset)
        (b :: rest) →
      ∀ b' ∈ rest.takeWhile (fun x => x.pathidx = b.pathidx),
        b.offset + b.length ≤ b'.offset
  | [], b => by
    intro _ b' hb'
    simp at hb'
  | h' :: t, b => by
    intro hch b' hb'
    have hhd : b.pathidx = h'.pathidx → b.offset + b.length ≤ h'.offset :=
      (List.chain'_cons.mp hch).1
    have hch' := (List.chain'_cons.mp hch).2
    by_cases hpe : h'.pathidx = b.pathidx
    · rw [List.takeWhile_cons_of_pos (by simp only [decide_eq_true_eq]; exact hpe)] at hb'
      rcases List.mem_cons.mp hb' with rfl | hb'
      · exact hhd hpe.symm
      · have hb'' : b' ∈ t.takeWhile (fun x => x.pathidx = h'.pathidx) := by
          rw [← hpe] at hb'
          exact hb'
        have hrec := chain_run_le t h' hch' b' hb''
        have hbh := hhd hpe.symm
        omega
    · rw [List.takeWhile_cons_of_neg (by simp only [decide_eq_true_eq]; exact hpe)] at hb'
      simp at hb'

/-- A range covering a page of the block survives the skip loop
(trace.c:587-589): only ranges entirely below the block's page start are
dropped. -/
theorem mem_dropWhile_of_covering (block : PackBlock) {L : List FileMap}
    {r : FileMap} {x : Nat} (hr : r ∈ L) (hx1 : block.offset ≤ x)
    (hre : x / PAGE_SIZE < r.end_) :
    r ∈ L.dropWhile (fun s => cmp_file_map s (page_range block) < 0) := by
  have hsplit := List.takeWhile_append_dropWhile
    (fun s => decide (cmp_file_map s (page_range block) < 0)) L
  rcases List.mem_append.mp (by rw [hsplit]; exact hr) with h | h
  · exfalso
    have hcmp := List.mem_takeWhile_imp h
    simp only [decide_eq_true_eq] at hcmp
    have hrb : r.end_ < block.offset / PAGE_SIZE :=
      (cmp_file_map_neg_iff r (page_range block)).mp hcmp
    have hdiv1 : block.offset / PAGE_SIZE ≤ x / PAGE_SIZE := Nat.div_le_div_right hx1
    omega
  · exact h

/-- The skip loop preserves properness and sortedness of the cursor. -/
theorem skipped_wf (block : PackBlock) {L : List FileMap} (h : FileMapsWF L) :
    (∀ s ∈ L.dropWhile (fun s => cmp_file_map s (page_range block) < 0),
      s.start < s.end_) ∧
    (L.dropWhile (fun s => cmp_file_map s (page_range block) < 0)).Pairwise
      (fun a b => a.end_ < b.start) :=
  ⟨fun s hs => h.1 s ((List.dropWhile_sublist _).subset hs),
   List.Pairwise.sublist (List.dropWhile_sublist _) h.2⟩

/-- Soundness of the whole pass: every non-marker output block names a path
whose inode is loaded and lies within whole pages of one of its recorded
ranges.  The invariant carried is that every cursor range belongs to the map
array of the current path. -/
theorem remove_untouched_loop_sound (lookup : Nat → Option (List FileMap)) :
    ∀ (bs : List PackBlock) (cur : Option Nat) (ms : List FileMap),
      (∀ p, cur = some p → ∀ r ∈ ms, ∃ M, lookup p = some M ∧ r ∈ M) →
      ∀ e ∈ remove_untouched_loop lookup cur ms bs, 0 < e.length →
        ∃ M, lookup e.pathidx = some M ∧
          ∃ r ∈ M, r.start * PAGE_SIZE ≤ e.offset ∧
            e.offset + e.length ≤ r.end_ * PAGE_SIZE
  | [] => by
    intro cur ms _ e he
    simp [remove_untouched_loop] at he
  | block :: rest => by
    intro cur ms hinv e he hlen
    by_cases hcur : cur = some block.pathidx
    · rw [rub_loop_cons_same hcur] at he
      rcases List.mem_append.mp he with he | he
      · obtain ⟨hep, hepos, r, hrmem, hrs, hrE⟩ :=
          emit_blocks_sound block (page_range block) _ e he
        have hrms : r ∈ ms := (List.dropWhile_sublist _).subset hrmem
        obtain ⟨M, hM, hrM⟩ := hinv block.pathidx hcur r hrms
        rw [hep]
        exact ⟨M, hM, r, hrM, hrs, hrE⟩
      · refine remove_untouched_loop_sound lookup rest cur _ ?_ e he hlen
        intro p hp r hrmem
        obtain ⟨consumed, hceq, -⟩ := emit_blocks_consumed block (page_range block)
          (ms.dropWhile (fun r => cmp_file_map r (page_range block) < 0))
        have hr1 : r ∈ ms.dropWhile (fun r => cmp_file_map r (page_range block) < 0) := by
          rw [hceq]
          exact List.mem_append_right _ hrmem
        exact hinv p hp r ((List.dropWhile_sublist _).subset hr1)
    · cases hl : lookup block.pathidx with
      | none =>
        rw [rub_loop_cons_none hcur hl] at he
        rcases List.mem_cons.mp he with rfl | he
        · simp at hlen
        · refine remove_untouched_loop_sound lookup rest (some block.pathidx) [] ?_ e he hlen
          intro p hp r hrmem
          simp at hrmem
      | some M =>
        rw [rub_loop_cons_load hcur hl] at he
        rcases List.mem_append.mp he with he | he
        · obtain ⟨hep, hepos, r, hrmem, hrs, hrE⟩ :=
            emit_blocks_sound block (page_range block) _ e he
          have hrM : r ∈ M := (List.dropWhile_sublist _).subset hrmem
          rw [hep]
          exact ⟨M, hl, r, hrM, hrs, hrE⟩
        · refine remove_untouched_loop_sound lookup rest (some block.pathidx) _ ?_ e he hlen
          intro p hp r hrmem
          obtain ⟨consumed, hceq, -⟩ := emit_blocks_consumed block (page_range block)
            (M.dropWhile (fun r => cmp_file_map r (page_range block) < 0))
          have hr1 : r ∈ M.dropWhile (fun r => cmp_file_map r (page_range block) < 0) := by
            rw [hceq]
            exact List.mem_append_right _ hrmem
          have hpp : block.pathidx = p := Option.some.inj hp
          refine ⟨M, ?_, (List.dropWhile_sublist _).subset hr1⟩
          rw [← hpp]
          exact hl

/-- Re-establishing the cursor invariant after one block of a loaded path. -/
theorem cursor_inv_step (lookup : Nat → Option (List FileMap)) (block : PackBlock)
    (rest : List PackBlock) (M pre ms : List FileMap)
    (hch : List.Chain'
      (fun a c => a.pathidx = c.pathidx → a.offset + a.length ≤ c.offset)
      (block :: rest))
    (hM : lookup block.pathidx = some M)
    (hMeq : M = pre ++ ms)
    (hpre : ∀ r ∈ pre,
      ∀ b ∈ (block :: rest).takeWhile (fun b => b.pathidx = block.pathidx),
        r.end_ ≤ b.offset / PAGE_SIZE) :
    CursorInv lookup (some block.pathidx)
      (emit_blocks block (page_range block)
        (ms.dropWhile (fun r => cmp_file_map r (page_range block) < 0))).2 rest := by
  intro p hp
  have hpp : block.pathidx = p := Option.some.inj hp
  subst hpp
  right
  obtain ⟨consumed, hceq, hcle⟩ := emit_blocks_consumed block (page_range block)
    (ms.dropWhile (fun r => cmp_file_map r (page_range block) < 0))
  refine ⟨M,
    (pre ++ ms.takeWhile (fun r => cmp_file_map r (page_range block) < 0)) ++ consumed,
    hM, ?_, ?_⟩
  · conv_lhs => rw [hMeq, ← List.takeWhile_append_dropWhile
      (fun r => decide (cmp_file_map r (page_range block) < 0)) ms]
    conv_lhs => rw [hceq]
    simp [List.append_assoc]
  · intro r hr b' hb'
    have hoff : block.offset + block.length ≤ b'.offset := chain_run_le rest block hch b' hb'
    have hd1 : block.offset / PAGE_SIZE ≤ b'.offset / PAGE_SIZE :=
      Nat.div_le_div_right (by omega)
    have hd2 : (block.offset + block.length) / PAGE_SIZE ≤ b'.offset / PAGE_SIZE :=
      Nat.div_le_div_right hoff
    rcases List.mem_append.mp hr with hr | hr
    · rcases List.mem_append.mp hr with hr | hr
      · apply hpre r hr b'
        rw [List.takeWhile_cons_of_pos (by simp)]
        exact List.mem_cons_of_mem _ hb'
      · have hcmp := List.mem_takeWhile_imp hr
        simp only [decide_eq_true_eq] at hcmp
        have hrb : r.end_ < block.offset / PAGE_SIZE :=
          (cmp_file_map_neg_iff r (page_range block)).mp hcmp
        omega
    · have hrb : r.end_ ≤ (block.offset + block.length) / PAGE_SIZE := hcle r hr
      omega

/-- Completeness of the whole pass: a byte of an input block whose page lies
in a recorded range of the block's (present) inode ends up inside an emitted
block of the same path.  Requires the assembler layout guarantee that
consecutive blocks of one path are disjoint and ascending (Chain'), which is
what keeps the forward-only filemap cursor from skipping a range still
needed by an upcoming block of the same run. -/
theorem remove_untouched_loop_complete (lookup : Nat → Option (List FileMap)) :
    ∀ (bs : List PackBlock) (cur : Option Nat) (ms : List FileMap),
      List.Chain' (fun a c => a.pathidx = c.pathidx → a.offset + a.length ≤ c.offset) bs →
      CursorInv lookup cur ms bs →
      ∀ b ∈ bs, ∀ M, lookup b.pathidx = some M → FileMapsWF M →
        ∀ x : Nat, b.offset ≤ x → x < b.offset + b.length →
        ∀ r ∈ M, r.start ≤ x / PAGE_SIZE → x / PAGE_SIZE < r.end_ →
        ∃ e ∈ remove_untouched_loop lookup cur ms bs,
          e.pathidx = b.pathidx ∧ e.offset ≤ x ∧ x < e.offset + e.length
  | [] => by
    intro cur ms _ _ b hb
    simp at hb
  | block :: rest => by
    intro cur ms hch hinv b hb M hM hMwf x hx1 hx2 r hr hrs hre
    have hch' : List.Chain'
        (fun a c => a.pathidx = c.pathidx → a.offset + a.length ≤ c.offset) rest :=
      hch.tail
    rcases List.mem_cons.mp hb with heq | hb
    · -- the target block is the head
      subst heq
      by_cases hcur : cur = some b.pathidx
      · rcases hinv b.pathidx hcur with ⟨hnone, -⟩ | ⟨M', pre, hM', hMeq, hpre⟩
        · rw [hM] at hnone
          simp at hnone
        · have hMM : M' = M := by
            rw [hM'] at hM
            exact Option.some.inj hM
          subst hMM
          have hdiv1 : b.offset / PAGE_SIZE ≤ x / PAGE_SIZE := Nat.div_le_div_right hx1
          have hrms : r ∈ ms := by
            rcases List.mem_append.mp (by rw [← hMeq]; exact hr) with h | h
            · exfalso
              have hrpre := hpre r h b
                (by rw [List.takeWhile_cons_of_pos (by simp)]
                    exact List.mem_cons_self _ _)
              omega
            · exact h
          have hmswf : FileMapsWF ms :=
            ⟨fun s hs => hMwf.1 s
              (by rw [hMeq]; exact (List.sublist_append_right pre ms).subset hs),
             List.Pairwise.sublist (List.sublist_append_right pre ms)
               (by rw [← hMeq]; exact hMwf.2)⟩
          have hrsk := mem_dropWhile_of_covering b hrms hx1 hre
          obtain ⟨e, he, hep, heo, hee⟩ := emit_blocks_complete b
            (ms.dropWhile (fun s => cmp_file_map s (page_range b) < 0))
            (skipped_wf b hmswf).1 (skipped_wf b hmswf).2 r hrsk x hx1 hx2 hrs hre
          rw [rub_loop_cons_same hcur]
          exact ⟨e, List.mem_append_left _ he, hep, heo, hee⟩
      · cases hl : lookup b.pathidx with
        | none =>
          rw [hM] at hl
          simp at hl
        | some M'' =>
          have hMM : M'' = M := by
            rw [hl] at hM
            exact Option.some.inj hM
          subst hMM
          have hrsk := mem_dropWhile_of_covering b hr hx1 hre
          obtain ⟨e, he, hep, heo, hee⟩ := emit_blocks_complete b
            (M''.dropWhile (fun s => cmp_file_map s (page_range b) < 0))
            (skipped_wf b hMwf).1 (skipped_wf b hMwf).2 r hrsk x hx1 hx2 hrs hre
          rw [rub_loop_cons_load hcur hl]
          exact ⟨e, List.mem_append_left _ he, hep, heo, hee⟩
    · -- the target block lies further on
      by_cases hcur : cur = some block.pathidx
      · rcases hinv block.pathidx hcur with ⟨hnone, hmse⟩ | ⟨M', pre, hM', hMeq, hpre⟩
        · subst hmse
          have hinv' : CursorInv lookup cur
              (emit_blocks block (page_range block)
                (([] : List FileMap).dropWhile
                  (fun r => cmp_file_map r (page_range block) < 0))).2 rest := by
            intro p hp
            have hpp : block.pathidx = p := Option.some.inj (hcur.symm.trans hp)
            left
            refine ⟨?_, rfl⟩
            rw [← hpp]
            exact hnone
          obtain ⟨e, he, hep, heo, hee⟩ := remove_untouched_loop_complete lookup rest cur
            (emit_blocks block (page_range block)
              (([] : List FileMap).dropWhile
                (fun r => cmp_file_map r (page_range block) < 0))).2
            hch' hinv' b hb M hM hMwf x hx1 hx2 r hr hrs hre
          rw [rub_loop_cons_same hcur]
          exact ⟨e, List.mem_append_right _ he, hep, heo, hee⟩
        · have hinv'' : CursorInv lookup cur
              (emit_blocks block (page_range block)
                (ms.dropWhile (fun r => cmp_file_map r (page_range block) < 0))).2 rest := by
            rw [hcur]
            exact cursor_inv_step lookup block rest M' pre ms hch hM' hMeq hpre
          obtain ⟨e, he, hep, heo, hee⟩ := remove_untouched_loop_complete lookup rest cur
            (emit_blocks block (page_range block)
              (ms.dropWhile (fun r => cmp_file_map r (page_range block) < 0))).2
            hch' hinv'' b hb M hM hMwf x hx1 hx2 r hr hrs hre
          rw [rub_loop_cons_same hcur]
          exact ⟨e, List.mem_append_right _ he, hep, heo, hee⟩
      · cases hl : lookup block.pathidx with
        | none =>
          have hinv' : CursorInv lookup (some block.pathidx) [] rest := by
            intro p hp
            have hpp : block.pathidx = p := Option.some.inj hp
            left
            refine ⟨?_, rfl⟩
            rw [← hpp]
            exact hl
          obtain ⟨e, he, hep, heo, hee⟩ := remove_untouched_loop_complete lookup rest
            (some block.pathidx) [] hch' hinv' b hb M hM hMwf x hx1 hx2 r hr hrs hre
          rw [rub_loop_cons_none hcur hl]
          exact ⟨e, List.mem_cons_of_mem _ he, hep, heo, hee⟩
        | some M'' =>
          have hinv' := cursor_inv_step lookup block rest M'' [] M'' hch hl (by simp)
            (by simp)
          obtain ⟨e, he, hep, heo, hee⟩ := remove_untouched_loop_complete lookup rest
            (some block.pathidx)
            (emit_blocks block (page_range block)
              (M''.dropWhile (fun r => cmp_file_map r (page_range block) < 0))).2
            hch' hinv' b hb M hM hMwf x hx1 hx2 r hr hrs hre
          rw [rub_loop_cons_load hcur hl]
          exact ⟨e, List.mem_append_right _ he, hep, heo, hee⟩

/-- **C3**.  For every PackFile whose device and inodes are present in the
device hash, with the assembler-guaranteed block layout (valid path indexes;
consecutive blocks of one path disjoint and ascending): after the
range-intersection pass every emitted non-marker block lies entirely within
one page range recorded for its path's inode (hence within the union of the
recorded ranges), and every byte of the pre-intersection blocks whose page
lies within a recorded accessed range appears in some emitted block of the
same path. -/
theorem remove_untouched_blocks_spec (file : PackFile)
    (device_inodes : Nat → Option (List FileMap))
    (hvalid : ∀ b ∈ file.blocks, b.pathidx < file.paths.length)
    (hpresent : ∀ i, i < file.paths.length →
      (device_inodes ((file.paths.getD i default).ino)).isSome = true)
    (hwf : ∀ i, i < file.paths.length →
      FileMapsWF ((device_inodes ((file.paths.getD i default).ino)).getD []))
    (hchain : file.blocks.Chain'
      (fun a c => a.pathidx = c.pathidx → a.offset + a.length ≤ c.offset)) :
    (∀ e ∈ (remove_untouched_blocks device_inodes file).blocks, 0 < e.length →
      ∃ r ∈ (device_inodes ((file.paths.getD e.pathidx default).ino)).getD [],
        r.start * PAGE_SIZE ≤ e.offset ∧ e.offset + e.length ≤ r.end_ * PAGE_SIZE) ∧
    (∀ b ∈ file.blocks, ∀ x : Nat, b.offset ≤ x → x < b.offset + b.length →
      (∃ r ∈ (device_inodes ((file.paths.getD b.pathidx default).ino)).getD [],
        r.start ≤ x / PAGE_SIZE ∧ x / PAGE_SIZE < r.end_) →
      ∃ e ∈ (remove_untouched_blocks device_inodes file).blocks,
        e.pathidx = b.pathidx ∧ e.offset ≤ x ∧ x < e.offset + e.length) := by
  constructor
  · intro e he hlen
    obtain ⟨M, hM, r, hrM, h1, h2⟩ := remove_untouched_loop_sound
      (fun pathidx => device_inodes ((file.paths.getD pathidx default).ino))
      file.blocks none [] (by intro p hp; simp at hp) e he hlen
    refine ⟨r, ?_, h1, h2⟩
    rw [hM]
    simpa using hrM
  · intro b hb x hx1 hx2 hacc
    obtain ⟨r, hr, hrs, hre⟩ := hacc
    have hbp := hvalid b hb
    have hsome := hpresent b.pathidx hbp
    obtain ⟨M, hM⟩ := Option.isSome_iff_exists.mp hsome
    have hgetD : (device_inodes ((file.paths.getD b.pathidx default).ino)).getD [] = M := by
      rw [hM]
      rfl
    have hrM : r ∈ M := by
      rw [← hgetD]
      exact hr
    have hMwf : FileMapsWF M := by
      rw [← hgetD]
      exact hwf b.pathidx hbp
    exact remove_untouched_loop_complete
      (fun pathidx => device_inodes ((file.paths.getD pathidx default).ino))
      file.blocks none [] hchain (by intro p hp; simp at hp) b hb M hM hMwf
      x hx1 hx2 r hrM hrs hre

/-- Witness for C3 at a concrete one-path, one-block PackFile. -/
theorem remove_untouched_blocks_spec_witness :
    (∀ b ∈ c3_file.blocks, b.pathidx < c3_file.paths.length) ∧
    (∀ i, i < c3_file.paths.length →
      (c3_inodes ((c3_file.paths.getD i default).ino)).isSome = true) ∧
    (∀ i, i < c3_file.paths.length →
      FileMapsWF ((c3_inodes ((c3_file.paths.getD i default).ino)).getD [])) ∧
    c3_file.blocks.Chain'
      (fun a c => a.pathidx = c.pathidx → a.offset + a.length ≤ c.offset) ∧
    ((∀ e ∈ (remove_untouched_blocks c3_inodes c3_file).blocks, 0 < e.length →
      ∃ r ∈ (c3_inodes ((c3_file.paths.getD e.pathidx default).ino)).getD [],
        r.start * PAGE_SIZE ≤ e.offset ∧ e.offset + e.length ≤ r.end_ * PAGE_SIZE) ∧
    (∀ b ∈ c3_file.blocks, ∀ x : Nat, b.offset ≤ x → x < b.offset + b.length →
      (∃ r ∈ (c3_inodes ((c3_file.paths.getD b.pathidx default).ino)).getD [],
        r.start ≤ x / PAGE_SIZE ∧ x / PAGE_SIZE < r.end_) →
      ∃ e ∈ (remove_untouched_blocks c3_inodes c3_file).blocks,
        e.pathidx = b.pathidx ∧ e.offset ≤ x ∧ x < e.offset + e.length)) :=
  ⟨by decide, by decide, by decide, by simp [c3_file],
    remove_untouched_blocks_spec c3_file c3_inodes (by decide) (by decide) (by decide)
      (by simp [c3_file])⟩

/-- The loop over an appended block list splits at the carried state. -/
theorem rub_loop_append (lookup : Nat → Option (List FileMap)) :
    ∀ (bs1 bs2 : List PackBlock) (cur : Option Nat) (ms : List FileMap),
      remove_untouched_loop lookup cur ms (bs1 ++ bs2) =
        remove_untouched_loop lookup cur ms bs1 ++
          remove_untouched_loop lookup
            (remove_untouched_state lookup cur ms bs1).1
            (remove_untouched_state lookup cur ms bs1).2 bs2
  | [], bs2, cur, ms => by
    simp [remove_untouched_loop, remove_untouched_state]
  | block :: bs1, bs2, cur, ms => by
    by_cases hcur : cur = some block.pathidx
    · rw [List.cons_append, rub_loop_cons_same hcur, rub_loop_cons_same hcur,
          rub_state_cons_same hcur, rub_loop_append lookup bs1 bs2, List.append_assoc]
    · cases hl : lookup block.pathidx with
      | none =>
        rw [List.cons_append, rub_loop_cons_none hcur hl, rub_loop_cons_none hcur hl,
            rub_state_cons_none hcur hl, rub_loop_append lookup bs1 bs2, List.cons_append]
      | some M =>
        rw [List.cons_append, rub_loop_cons_load hcur hl, rub_loop_cons_load hcur hl,
            rub_state_cons_load hcur hl, rub_loop_append lookup bs1 bs2, List.append_assoc]

/-- After the open-only marker state is entered, the remaining blocks of the
same path produce no output and leave the state unchanged (nr_maps = 0 makes
both inner loops skip, trace.c:574-575). -/
theorem rub_loop_marker_run (lookup : Nat → Option (List FileMap)) (p : Nat) :
    ∀ bs : List PackBlock, (∀ b ∈ bs, b.pathidx = p) →
      remove_untouched_loop lookup (some p) [] bs = [] ∧
      remove_untouched_state lookup (some p) [] bs = (some p, [])
  | [] => fun _ => ⟨rfl, rfl⟩
  | block :: bs => fun hall => by
    have hbp : block.pathidx = p := hall block (List.mem_cons_self _ _)
    have hcur : (some p : Option Nat) = some block.pathidx := by rw [hbp]
    obtain ⟨ih1, ih2⟩ := rub_loop_marker_run lookup p bs
      (fun b hb => hall b (List.mem_cons_of_mem _ hb))
    constructor
    · rw [rub_loop_cons_same hcur]
      exact ih1
    · rw [rub_state_cons_same hcur]
      exact ih2

/-- Every output block of the pass carries the pathidx of some input block
(pieces and markers both copy block->pathidx, trace.c:569, 613). -/
theorem rub_loop_pathidx (lookup : Nat → Option (List FileMap)) :
    ∀ (bs : List PackBlock) (cur : Option Nat) (ms : List FileMap),
      ∀ e ∈ remove_untouched_loop lookup cur ms bs, ∃ b ∈ bs, e.pathidx = b.pathidx
  | [] => by
    intro cur ms e he
    simp [remove_untouched_loop] at he
  | block :: rest => by
    intro cur ms e he
    by_cases hcur : cur = some block.pathidx
    · rw [rub_loop_cons_same hcur] at he
      rcases List.mem_append.mp he with he | he
      · exact ⟨block, List.mem_cons_self _ _, (emit_blocks_sound _ _ _ e he).1⟩
      · obtain ⟨b, hb, hee⟩ := rub_loop_pathidx lookup rest cur _ e he
        exact ⟨b, List.mem_cons_of_mem _ hb, hee⟩
    · cases hl : lookup block.pathidx with
      | none =>
        rw [rub_loop_cons_none hcur hl] at he
        rcases List.mem_cons.mp he with rfl | he
        · exact ⟨block, List.mem_cons_self _ _, rfl⟩
        · obtain ⟨b, hb, hee⟩ := rub_loop_pathidx lookup rest (some block.pathidx) [] e he
          exact ⟨b, List.mem_cons_of_mem _ hb, hee⟩
      | some M =>
        rw [rub_loop_cons_load hcur hl] at he
        rcases List.mem_append.mp he with he | he
        · exact ⟨block, List.mem_cons_self _ _, (emit_blocks_sound _ _ _ e he).1⟩
        · obtain ⟨b, hb, hee⟩ := rub_loop_pathidx lookup rest (some block.pathidx) _ e he
          exact ⟨b, List.mem_cons_of_mem _ hb, hee⟩

/-- The current-path component of the carried state is the pathidx of the
last block processed (or the initial state for an empty list). -/
theorem rub_state_cur (lookup : Nat → Option (List FileMap)) :
    ∀ (bs : List PackBlock) (cur : Option Nat) (ms : List FileMap),
      (remove_untouched_state lookup cur ms bs).1 =
        bs.foldl (fun _ b => some b.pathidx) cur
  | [] => fun _ _ => rfl
  | block :: rest => by
    intro cur ms
    by_cases hcur : cur = some block.pathidx
    · rw [rub_state_cons_same hcur, rub_state_cur lookup rest, List.foldl_cons, ← hcur]
    · cases hl : lookup block.pathidx with
      | none => rw [rub_state_cons_none hcur hl, rub_state_cur lookup rest, List.foldl_cons]
      | some M => rw [rub_state_cons_load hcur hl, rub_state_cur lookup rest, List.foldl_cons]

/-- The folded current path stays away from p when it starts away from p and
no block has path p. -/
theorem foldl_cur_ne (p : Nat) :
    ∀ (bs : List PackBlock) (cur : Option Nat), cur ≠ some p →
      (∀ b ∈ bs, b.pathidx ≠ p) →
      bs.foldl (fun _ b => some b.pathidx) cur ≠ some p
  | [], cur => fun h _ => h
  | block :: rest, cur => fun h hall => by
    rw [List.foldl_cons]
    exact foldl_cur_ne p rest (some block.pathidx)
      (fun hc => hall block (List.mem_cons_self _ _) (Option.some.inj hc))
      (fun b hb => hall b (List.mem_cons_of_mem _ hb))

/-- **C6**.  For every path p whose blocks are present in the PackFile and
contiguous (the assembler appends a path's blocks in one pass), but whose
(device, inode) has no entry in the device hash, the range-intersection pass
emits exactly one open-only marker block {p, 0, 0, 0} for that path and drops
all of its original blocks. -/
theorem remove_untouched_blocks_marker (file : PackFile)
    (device_inodes : Nat → Option (List FileMap)) (p : Nat)
    (B1 Bp B2 : List PackBlock)
    (hsplit : file.blocks = B1 ++ Bp ++ B2)
    (hne : Bp ≠ [])
    (hp : ∀ b ∈ Bp, b.pathidx = p)
    (hout : ∀ b ∈ B1 ++ B2, b.pathidx ≠ p)
    (hmiss : device_inodes ((file.paths.getD p default).ino) = none) :
    (remove_untouched_blocks device_inodes file).blocks.filter
      (fun e => e.pathidx = p) = [⟨p, 0, 0, 0⟩] := by
  show (remove_untouched_loop
      (fun pathidx => device_inodes ((file.paths.getD pathidx default).ino))
      none [] file.blocks).filter (fun e => e.pathidx = p) = [⟨p, 0, 0, 0⟩]
  cases Bp with
  | nil => exact absurd rfl hne
  | cons bp bp' =>
    have hbp : bp.pathidx = p := hp bp (List.mem_cons_self _ _)
    have hall' : ∀ b ∈ bp', b.pathidx = bp.pathidx := by
      intro b hb
      rw [hbp]
      exact hp b (List.mem_cons_of_mem _ hb)
    have hcur1 : ¬ (remove_untouched_state
        (fun pathidx => device_inodes ((file.paths.getD pathidx default).ino))
        none [] B1).1 = some bp.pathidx := by
      rw [rub_state_cur, hbp]
      exact foldl_cur_ne p B1 none (by simp)
        (fun b hb => hout b (List.mem_append_left _ hb))
    have hl1 : (fun pathidx => device_inodes ((file.paths.getD pathidx default).ino))
        bp.pathidx = none := by
      show device_inodes ((file.paths.getD bp.pathidx default).ino) = none
      rw [hbp]
      exact hmiss
    have hf1 : (remove_untouched_loop
        (fun pathidx => device_inodes ((file.paths.getD pathidx default).ino))
        none [] B1).filter (fun e => e.pathidx = p) = [] := by
      rw [List.filter_eq_nil_iff]
      intro e he
      obtain ⟨b, hb, hee⟩ := rub_loop_pathidx _ B1 none [] e he
      simp only [decide_eq_true_eq]
      rw [hee]
      exact hout b (List.mem_append_left _ hb)
    have hf2 : (remove_untouched_loop
        (fun pathidx => device_inodes ((file.paths.getD pathidx default).ino))
        (some bp.pathidx) [] B2).filter (fun e => e.pathidx = p) = [] := by
      rw [List.filter_eq_nil_iff]
      intro e he
      obtain ⟨b, hb, hee⟩ := rub_loop_pathidx _ B2 (some bp.pathidx) [] e he
      simp only [decide_eq_true_eq]
      rw [hee]
      exact hout b (List.mem_append_right _ hb)
    rw [hsplit, List.append_assoc, rub_loop_append _ B1 ((bp :: bp') ++ B2), List.cons_append,
        rub_loop_cons_none hcur1 hl1, rub_loop_append _ bp' B2,
        (rub_loop_marker_run _ bp.pathidx bp' hall').1,
        (rub_loop_marker_run _ bp.pathidx bp' hall').2]
    rw [List.filter_append, hf1, List.nil_append, List.nil_append]
    rw [List.filter_cons_of_pos (by simp [hbp])]
    rw [hf2, hbp]

/-- Witness for C6: a single opened-but-never-faulted path. -/
theorem remove_untouched_blocks_marker_witness :
    c6_file.blocks = [] ++ [⟨0, 0, 4096, 3⟩] ++ [] ∧
    ([⟨0, 0, 4096, 3⟩] : List PackBlock) ≠ [] ∧
    (∀ b ∈ ([⟨0, 0, 4096, 3⟩] : List PackBlock), b.pathidx = 0) ∧
    (∀ b ∈ ([] : List PackBlock) ++ [], b.pathidx ≠ 0) ∧
    ((fun _ => none : Nat → Option (List FileMap))
      ((c6_file.paths.getD 0 default).ino) = none) ∧
    (remove_untouched_blocks (fun _ => none) c6_file).blocks.filter
      (fun e => e.pathidx = 0) = [⟨0, 0, 0, 0⟩] :=
  ⟨by decide, by decide, by decide, by decide, by decide,
    remove_untouched_blocks_marker c6_file (fun _ => none) 0
      [] [⟨0, 0, 4096, 3⟩] [] (by decide) (by decide) (by decide) (by decide) (by decide)⟩

theorem trace_add_path_op_valid (file : PackFile) (op : AssembleOp)
    (h : PackFileValid file) : PackFileValid (trace_add_path_op file op) := by
  intro b hb
  simp only [trace_add_path_op, List.mem_append, List.mem_map] at hb
  simp only [trace_add_path_op, List.length_append, List.length_cons, List.length_nil]
  rcases hb with hb | ⟨c, _, rfl⟩
  · have := h b hb
    omega
  · simp only [List.length_append, List.length_cons, List.length_nil]
    omega

theorem foldl_add_path_valid :
    ∀ (ops : List AssembleOp) (file : PackFile), PackFileValid file →
      PackFileValid (ops.foldl trace_add_path_op file)
  | [], _, h => h
  | op :: ops, file, h =>
    foldl_add_path_valid ops (trace_add_path_op file op)
      (trace_add_path_op_valid file op h)

theorem remove_untouched_blocks_valid (device_inodes : Nat → Option (List FileMap))
    (file : PackFile) (h : PackFileValid file) :
    PackFileValid (remove_untouched_blocks device_inodes file) := by
  intro e he
  obtain ⟨b, hb, hee⟩ := rub_loop_pathidx
    (fun pathidx => device_inodes ((file.paths.getD pathidx default).ino))
    file.blocks none [] e he
  have hlt := h b hb
  show e.pathidx < file.paths.length
  omega

theorem trace_sort_blocks_valid (file : PackFile) (h : PackFileValid file) :
    PackFileValid (trace_sort_blocks file) := by
  intro b hb
  exact h b (List.mem_mergeSort.mp hb)

theorem trace_sort_paths_valid (file : PackFile) (h : PackFileValid file) :
    PackFileValid (trace_sort_paths file) := by
  intro b hb
  simp only [trace_sort_paths, List.mem_map] at hb
  obtain ⟨c, hc, rfl⟩ := hb
  simp only [trace_sort_paths, List.length_map]
  have hmem : c.pathidx ∈ (List.range file.paths.length).mergeSort
      (fun i j => path_compar (file.paths.getD i default) (file.paths.getD j default) ≤ 0) := by
    rw [List.mem_mergeSort, List.mem_range]
    exact h c hc
  exact List.indexOf_lt_length.mpr hmem

/-- **C7**.  Every block of a PackFile names a valid index into its path
array, at every stage: after assembly by any sequence of trace_add_path /
trace_add_chunks / trace_add_extents calls, and the property is preserved by
the range-intersection pass, by the block sort, and by the path sort (which
rewrites every pathidx through the inverse of the path permutation). -/
theorem pack_pathidx_valid (dev : Nat) (rotational : Bool) (ops : List AssembleOp)
    (device_inodes : Nat → Option (List FileMap)) :
    PackFileValid (assemble dev rotational ops) ∧
    ∀ file : PackFile, PackFileValid file →
      PackFileValid (remove_untouched_blocks device_inodes file) ∧
      PackFileValid (trace_sort_blocks file) ∧
      PackFileValid (trace_sort_paths file) :=
  ⟨foldl_add_path_valid ops (new_pack_file dev rotational)
      (fun b hb => absurd hb (List.not_mem_nil b)),
   fun file h =>
    ⟨remove_untouched_blocks_valid device_inodes file h,
     trace_sort_blocks_valid file h,
     trace_sort_paths_valid file h⟩⟩

/-- Witness for C7: the single-path pack file, each stage checked concretely. -/
theorem pack_pathidx_valid_witness :
    PackFileValid c6_file ∧
    (PackFileValid (remove_untouched_blocks (fun _ => none) c6_file) ∧
     PackFileValid (trace_sort_blocks c6_file) ∧
     PackFileValid (trace_sort_paths c6_file)) :=
  ⟨by decide,
   (pack_pathidx_valid 0 true [] (fun _ => none)).2 c6_file (by decide)⟩

theorem trace_file_findIdx_some (files : List PackFile) (dev i : Nat)
    (h : files.findIdx? (fun f => f.dev == dev) = some i) :
    i < files.length ∧ (files.getD i default).dev = dev := by
  rw [List.findIdx?_eq_some_iff_findIdx_eq] at h
  obtain ⟨hlt, hidx⟩ := h
  subst hidx
  refine ⟨hlt, ?_⟩
  have hget := @List.findIdx_getElem _ (fun f => f.dev == dev) files hlt
  have hgd : files.getD (files.findIdx (fun f => f.dev == dev)) default =
      files[files.findIdx (fun f => f.dev == dev)] := by
    rw [List.getD_eq_getElem?_getD, List.getElem?_eq_getElem hlt]
    rfl
  rw [hgd]
  simpa using hget

theorem trace_file_preserves_distinct (files : List PackFile) (dev : Nat)
    (rotational : Bool)
    (h : files.Pairwise (fun a b => a.dev ≠ b.dev)) :
    (trace_file files dev rotational).2.Pairwise (fun a b => a.dev ≠ b.dev) := by
  unfold trace_file
  cases hf : files.findIdx? (fun f => f.dev == dev) with
  | some i => exact h
  | none =>
    show (files ++ [new_pack_file dev rotational]).Pairwise (fun a b => a.dev ≠ b.dev)
    rw [List.pairwise_append]
    refine ⟨h, List.pairwise_singleton _ _, ?_⟩
    intro a ha b hb
    simp only [List.mem_singleton] at hb
    subst hb
    show a.dev ≠ dev
    simpa using List.findIdx?_eq_none_iff.mp hf a ha

theorem trace_file_fold_distinct :
    ∀ (reqs : List (Nat × Bool)) (files : List PackFile),
      files.Pairwise (fun a b => a.dev ≠ b.dev) →
      (reqs.foldl (fun fs r => (trace_file fs r.1 r.2).2) files).Pairwise
        (fun a b => a.dev ≠ b.dev)
  | [], _, h => h
  | r :: reqs, files, h =>
    trace_file_fold_distinct reqs _ (trace_file_preserves_distinct files r.1 r.2 h)

/-- **C10**.  trace_file returns the index of the already-existing PackFile of
the requested device when one is present (leaving the array unchanged) and
appends a fresh empty PackFile only when none exists, so after any sequence of
device requests the PackFile array never holds two entries with the same
device number: all paths and blocks of one device accumulate in one file. -/
theorem trace_file_single_per_dev (files : List PackFile) (dev : Nat)
    (rotational : Bool) :
    (∀ i, files.findIdx? (fun f => f.dev == dev) = some i →
      trace_file files dev rotational = (i, files) ∧
      i < files.length ∧ (files.getD i default).dev = dev) ∧
    (files.findIdx? (fun f => f.dev == dev) = none →
      trace_file files dev rotational =
        (files.length, files ++ [new_pack_file dev rotational]) ∧
      ∀ f ∈ files, f.dev ≠ dev) ∧
    (∀ reqs : List (Nat × Bool),
      (trace_file_fold reqs).Pairwise (fun a b => a.dev ≠ b.dev)) := by
  refine ⟨?_, ?_, ?_⟩
  · intro i hi
    refine ⟨?_, trace_file_findIdx_some files dev i hi⟩
    unfold trace_file
    rw [hi]
  · intro hn
    refine ⟨?_, ?_⟩
    · unfold trace_file
      rw [hn]
    · intro f hf
      simpa using List.findIdx?_eq_none_iff.mp hn f hf
  · intro reqs
    exact trace_file_fold_distinct reqs [] List.Pairwise.nil

/-- Witness for C10: a hit on device 1, a miss on device 2, and a request
sequence with a repeated device. -/
theorem trace_file_single_per_dev_witness :
    (trace_file [⟨1, true, [], []⟩] 1 false = (0, [⟨1, true, [], []⟩]) ∧
      0 < ([⟨1, true, [], []⟩] : List PackFile).length ∧
      (([⟨1, true, [], []⟩] : List PackFile).getD 0 default).dev = 1) ∧
    (trace_file [⟨1, true, [], []⟩] 2 false =
        (1, [⟨1, true, [], []⟩] ++ [new_pack_file 2 false]) ∧
      ∀ f ∈ ([⟨1, true, [], []⟩] : List PackFile), f.dev ≠ 2) ∧
    (trace_file_fold [(1, true), (2, false), (1, true)]).Pairwise
      (fun a b => a.dev ≠ b.dev) :=
  ⟨(trace_file_single_per_dev [⟨1, true, [], []⟩] 1 false).1 0 (by decide),
   (trace_file_single_per_dev [⟨1, true, [], []⟩] 2 false).2.1 (by decide),
   (trace_file_single_per_dev [] 0 false).2.2 [(1, true), (2, false), (1, true)]⟩
